import Mathlib

/-!
Verification of the edge-flip mesh-beautify core (`bmesh_beautify.cc`).

The development shallowly embeds the source file's data model and control
flow:

* `EdRotState`, `erot_state_current`, `erot_state_alternate` — the per-slot
  local-configuration signatures (`EdRotState`, `erot_state_ex` and friends).
* `bm_edge_calc_rotate_beauty_angle`, `BM_verts_calc_rotate_beauty` — the
  quality-metric evaluator.
* `bm_edge_update_beauty_cost_single`, `bm_edge_update_beauty_cost`,
  `seedAll`, `beautifyStep`, `beautifyLoop`, `BM_mesh_beautify_fill` — the
  heap seeding and the pop / flip / rescore orchestrator.

The surrounding mesh-topology library (`BM_edge_rotate`, vertex-index
queries, `BLI_heap`, `GSet`) is not part of the sources; following the
spec, it is modelled as an abstract collaborator `MeshKit` whose documented
contracts appear as explicit hypotheses (`Contracts`).  Machine floats are
modelled by exact rationals; the `FLT_MAX` sentinel is a fixed positive
rational.
-/

/-- Pointwise update of a function, used for all index-aligned side tables
(`eheap_table`, `edge_state_arr`, the candidate array and the
`BM_elem_index` side channel). -/
def upd {β α : Type} [DecidableEq β] (f : β → α) (b : β) (a : α) : β → α :=
  fun x => if x = b then a else f x

theorem upd_same {β α : Type} [DecidableEq β] (f : β → α) (b : β) (a : α) :
    upd f b a b = a := by
  simp [upd]

theorem upd_ne {β α : Type} [DecidableEq β] (f : β → α) (b : β) (a : α)
    {x : β} (h : x ≠ b) : upd f b a x = f x := by
  simp [upd, h]

/-- The unsorted local configuration an edge presents to `erot_state_ex`:
the indices of the edge's two vertices (`e->v1`, `e->v2`) and of the two
opposite apex vertices (`e->l->prev->v`, `e->l->radial_next->prev->v`). -/
structure LocalCfg where
  ev1 : Int
  ev2 : Int
  fa : Int
  fb : Int
deriving DecidableEq

/-- `EdRotState`: edge vert indices (ordered small -> large) in `v0,v1` and
face (apex) vert indices (small -> large) in `f0,f1`. -/
structure EdRotState where
  v0 : Int
  v1 : Int
  f0 : Int
  f1 : Int
deriving DecidableEq

/-- The `EDGE_ORD` macro: order a pair small -> large. -/
def edgeOrd (a b : Int) : Int × Int :=
  if b < a then (b, a) else (a, b)

/-- `erot_state_current`: the signature of the edge's present orientation
(sorted edge verts into `v_pair`, sorted apexes into `f_pair`). -/
def erot_state_current (c : LocalCfg) : EdRotState :=
  ⟨(edgeOrd c.ev1 c.ev2).1, (edgeOrd c.ev1 c.ev2).2,
   (edgeOrd c.fa c.fb).1, (edgeOrd c.fa c.fb).2⟩

/-- `erot_state_alternate`: the signature the slot would have after a flip;
`erot_state_ex` is called with the two output pairs swapped, so the sorted
apexes land in `v_pair` and the sorted edge verts in `f_pair`. -/
def erot_state_alternate (c : LocalCfg) : EdRotState :=
  ⟨(edgeOrd c.fa c.fb).1, (edgeOrd c.fa c.fb).2,
   (edgeOrd c.ev1 c.ev2).1, (edgeOrd c.ev1 c.ev2).2⟩

/-! ### The quality-metric evaluator -/

/-- 3D vectors with exact rational coordinates. -/
abbrev Vec3 : Type := ℚ × ℚ × ℚ

def vsub (a b : Vec3) : Vec3 := (a.1 - b.1, a.2.1 - b.2.1, a.2.2 - b.2.2)

def vcross (a b : Vec3) : Vec3 :=
  (a.2.1 * b.2.2 - a.2.2 * b.2.1,
   a.2.2 * b.1 - a.1 * b.2.2,
   a.1 * b.2.1 - a.2.1 * b.1)

def vzero : Vec3 := ((0 : ℚ), (0 : ℚ), (0 : ℚ))

/-- Modelled from the spec: `normal_tri_v3` (from the math library, not in
the sources) returns `0.0f` exactly when the triangle is degenerate, i.e.
has zero area / an undefined normal.  Over exact rationals this is the
cross product of two triangle edge vectors being the zero vector. -/
def normalTriIsZero (a b c : Vec3) : Bool :=
  decide (vcross (vsub a b) (vsub b c) = vzero)

/-- The `FLT_MAX` sentinel ("no improvement").  The only facts the
algorithm uses are that it is one fixed value and that it is not below
zero. -/
def fltMax : ℚ := 2 ^ 128

/-- `bm_edge_calc_rotate_beauty__angle`.  The angle between the (unit)
normals of two triangles is not rational; since `angle_normalized_v3v3`
lives outside the sources it is abstracted as the parameter `ang`, taking
the two triangles.  The degeneracy test on the two post-flip triangles
`(v1,v2,v3)` and `(v1,v3,v4)` is exact. -/
def bm_edge_calc_rotate_beauty_angle (ang : Vec3 × Vec3 × Vec3 → Vec3 × Vec3 × Vec3 → ℚ)
    (v1 v2 v3 v4 : Vec3) : ℚ :=
  let angle24 := ang (v2, v3, v4) (v2, v4, v1)
  if normalTriIsZero v1 v2 v3 || normalTriIsZero v1 v3 v4 then fltMax
  else ang (v1, v2, v3) (v1, v3, v4) - angle24

/-- A `BMVert`: identity, position and the `BM_ELEM_TAG` bit. -/
structure BMVert where
  id : Nat
  co : Vec3
  tag : Bool
deriving DecidableEq

/-- `BM_verts_calc_rotate_beauty`.  `restrictTag` is the
`VERT_RESTRICT_TAG` bit of `flag`, `restrictDegen` the
`EDGE_RESTRICT_DEGENERATE` bit; `method = 0` selects the area metric
(`BLI_polyfill_edge_calc_rotate_beauty__area`, outside the sources, hence
the parameter `areaMetric`), anything else the angle metric. -/
def BM_verts_calc_rotate_beauty
    (areaMetric : Vec3 → Vec3 → Vec3 → Vec3 → Bool → ℚ)
    (ang : Vec3 × Vec3 × Vec3 → Vec3 × Vec3 × Vec3 → ℚ)
    (v1 v2 v3 v4 : BMVert) (restrictTag restrictDegen : Bool)
    (method : Nat) : ℚ :=
  if restrictTag && (v1.tag == v3.tag) then fltMax
  else if v1 = v3 then fltMax
  else if method = 0 then areaMetric v1.co v2.co v3.co v4.co restrictDegen
  else bm_edge_calc_rotate_beauty_angle ang v1.co v2.co v3.co v4.co

/-- **C7** — For every quad input, the angle metric returns the
"no improvement" sentinel whenever either post-flip triangle `(v1,v2,v3)`
or `(v1,v3,v4)` is degenerate (zero area / zero-length normal), and the
sentinel is not negative, so the `cost < 0` heap-insertion guard rejects
it and such a flip is never queued or performed. -/
theorem angle_metric_degenerate_sentinel
    (ang : Vec3 × Vec3 × Vec3 → Vec3 × Vec3 × Vec3 → ℚ) (v1 v2 v3 v4 : Vec3)
    (hdeg : normalTriIsZero v1 v2 v3 = true ∨ normalTriIsZero v1 v3 v4 = true) :
    bm_edge_calc_rotate_beauty_angle ang v1 v2 v3 v4 = fltMax ∧
      ¬ bm_edge_calc_rotate_beauty_angle ang v1 v2 v3 v4 < 0 := by
  have hcond : (normalTriIsZero v1 v2 v3 || normalTriIsZero v1 v3 v4) = true := by
    rcases hdeg with h | h <;> simp [h]
  have hval : bm_edge_calc_rotate_beauty_angle ang v1 v2 v3 v4 = fltMax := by
    unfold bm_edge_calc_rotate_beauty_angle
    simp [hcond]
  refine ⟨hval, ?_⟩
  rw [hval]
  norm_num [fltMax]

/-- Witness for C7: the collinear triple `(0,0,0), (1,0,0), (2,0,0)`
degenerates the first post-flip triangle; the metric yields the sentinel
and the sentinel is not an improving score. -/
theorem angle_metric_degenerate_sentinel_witness :
    bm_edge_calc_rotate_beauty_angle (fun _ _ => 0)
        ((0 : ℚ), (0 : ℚ), (0 : ℚ)) ((1 : ℚ), (0 : ℚ), (0 : ℚ))
        ((2 : ℚ), (0 : ℚ), (0 : ℚ)) ((0 : ℚ), (1 : ℚ), (0 : ℚ)) = fltMax ∧
      ¬ bm_edge_calc_rotate_beauty_angle (fun _ _ => 0)
        ((0 : ℚ), (0 : ℚ), (0 : ℚ)) ((1 : ℚ), (0 : ℚ), (0 : ℚ))
        ((2 : ℚ), (0 : ℚ), (0 : ℚ)) ((0 : ℚ), (1 : ℚ), (0 : ℚ)) < 0 :=
  angle_metric_degenerate_sentinel (fun _ _ => 0) _ _ _ _
    (Or.inl (by norm_num [normalTriIsZero, vcross, vsub, vzero, Prod.ext_iff]))

/-- **C8** — `BM_verts_calc_rotate_beauty` returns the sentinel
immediately when the two apexes are the same vertex, or when the
restrict-by-tag flag is set and both apexes carry the same tag state;
neither the area nor the angle geometry is consulted (the result does not
depend on the metric parameters in these cases). -/
theorem verts_calc_rotate_beauty_shortcircuit
    (areaMetric : Vec3 → Vec3 → Vec3 → Vec3 → Bool → ℚ)
    (ang : Vec3 × Vec3 × Vec3 → Vec3 × Vec3 × Vec3 → ℚ)
    (v1 v2 v3 v4 : BMVert) (restrictTag restrictDegen : Bool) (method : Nat)
    (h : v1 = v3 ∨ (restrictTag = true ∧ v1.tag = v3.tag)) :
    BM_verts_calc_rotate_beauty areaMetric ang v1 v2 v3 v4
        restrictTag restrictDegen method = fltMax := by
  unfold BM_verts_calc_rotate_beauty
  rcases h with h | ⟨ht, he⟩
  · subst h
    by_cases hr : restrictTag && (v1.tag == v1.tag) = true <;> simp [hr]
  · simp [ht, he]

/-- Witness for C8: two distinct tagged apexes with the restriction flag
set short-circuit to the sentinel. -/
theorem verts_calc_rotate_beauty_shortcircuit_witness :
    BM_verts_calc_rotate_beauty (fun _ _ _ _ _ => -1) (fun _ _ => 0)
        ⟨0, ((0 : ℚ), (0 : ℚ), (0 : ℚ)), true⟩
        ⟨1, ((1 : ℚ), (0 : ℚ), (0 : ℚ)), false⟩
        ⟨2, ((0 : ℚ), (1 : ℚ), (0 : ℚ)), true⟩
        ⟨3, ((1 : ℚ), (1 : ℚ), (0 : ℚ)), false⟩
        true false 1 = fltMax :=
  verts_calc_rotate_beauty_shortcircuit _ _ _ _ _ _ _ _ _
    (Or.inr ⟨rfl, rfl⟩)

/-! ### The collaborator contract and the orchestrator state -/

/-- Modelled from the spec: the mesh-topology collaborator
(`bmesh` core and `BM_edge_rotate`, outside the sources).  `M` is the mesh,
`E` the edge handles, `F` the face handles.

* `cost e` — the fully applied `bm_edge_calc_rotate_beauty(e, flag, method)`
  score of flipping `e` (the vertex geometry lives in the mesh, so the
  applied score map is a collaborator query);
* `cfg e` — the vertex indices `erot_state_ex` reads from `e` (its two
  endpoints and the two opposite apexes);
* `rotate e` — `BM_edge_rotate(bm, e, false, BM_EDGEROT_CHECK_EXISTS)`:
  `none` is a refusal, otherwise the mutated mesh and the new edge;
* `nbrs e` — the four boundary edges of the two triangles of `e`
  (`e->l->next->e`, `e->l->prev->e`, `e->l->radial_next->next->e`,
  `e->l->radial_next->prev->e`);
* `facesOf e` — the two faces incident to `e`;
* `memEdge e` — whether `e` is currently an edge of the mesh. -/
structure MeshKit (M E F : Type) where
  cost : M → E → ℚ
  cfg : M → E → LocalCfg
  rotate : M → E → Option (M × E)
  nbrs : M → E → E × E × E × E
  facesOf : M → E → F × F
  memEdge : M → E → Bool

/-- The transient state of one `BM_mesh_beautify_fill` invocation.

* `arr` — the caller's `edge_array`, overwritten in place (slots are `Int`
  to match the C `int` index);
* `eindex` — the `BM_elem_index_get`/`set` side channel on edges;
* `heap` — the `BLI_heap` contents as (cost, edge, slot-at-insertion)
  triples (the third component stands for the `HeapNode` handle recorded
  in `eheap_table` at insertion time);
* `table` — whether `eheap_table[i]` is non-null;
* `stateArr` — `edge_state_arr`: the lazily created per-slot `GSet` of
  previously recorded signatures (`none` = never created);
* `etag`, `ftag` — edges/faces flagged with `oflag_edge` / `oflag_face`;
* `flips` — instrumentation: each executed flip as (popped score, slot,
  recorded signature), most recent first. -/
structure BState (M E F : Type) where
  mesh : M
  arr : Int → E
  eindex : E → Int
  heap : List (ℚ × E × Int)
  table : Int → Bool
  stateArr : Int → Option (List EdRotState)
  etag : List E
  ftag : List F
  flips : List (ℚ × Int × EdRotState)

/-- `BLI_heap_pop_min`: remove and return a minimum-cost entry. -/
def heapPopMin {E : Type} : List (ℚ × E × Int) →
    Option ((ℚ × E × Int) × List (ℚ × E × Int))
  | [] => none
  | x :: xs =>
    match heapPopMin xs with
    | none => some (x, [])
    | some (m, rest) => if x.1 ≤ m.1 then some (x, xs) else some (m, x :: rest)

section Orchestrator

variable {M E F : Type} [DecidableEq E]

/-- `bm_edge_update_beauty_cost_single`: if `e` is in the candidate array
(`edge_in_array`: a valid `BM_elem_index` pointing back at `e`), drop its
stale heap entry, skip when the post-flip signature was already recorded
at that slot, otherwise re-insert when the fresh score is improving. -/
def bm_edge_update_beauty_cost_single (K : MeshKit M E F) (n : Nat)
    (e : E) (st : BState M E F) : BState M E F :=
  if 0 ≤ st.eindex e ∧ st.eindex e < (n : Int) ∧ st.arr (st.eindex e) = e then
    let i := st.eindex e
    let st1 := if st.table i then
        { st with heap := st.heap.filter (fun p => decide (p.2.2 ≠ i)),
                  table := upd st.table i false }
      else st
    let skip : Bool :=
      match st1.stateArr i with
      | some l => decide (erot_state_alternate (K.cfg st1.mesh e) ∈ l)
      | none => false
    if skip then st1
    else
      let cost := K.cost st1.mesh e
      if cost < 0 then
        { st1 with heap := (cost, e, i) :: st1.heap, table := upd st1.table i true }
      else
        { st1 with table := upd st1.table i false }
  else st

/-- `bm_edge_update_beauty_cost`: rescore the four boundary edges of the
two triangles of the freshly rotated edge `e`. -/
def bm_edge_update_beauty_cost (K : MeshKit M E F) (n : Nat)
    (e : E) (st : BState M E F) : BState M E F :=
  let q := K.nbrs st.mesh e
  bm_edge_update_beauty_cost_single K n q.2.2.2
    (bm_edge_update_beauty_cost_single K n q.2.2.1
      (bm_edge_update_beauty_cost_single K n q.2.1
        (bm_edge_update_beauty_cost_single K n q.1 st)))

/-- One iteration of the RUNNING loop: pop the minimum entry, clear its
slot's table cell, request the rotation; on refusal continue, on success
record the new signature, replace the candidate-array entry, rescore the
neighbourhood and apply the optional tags.  `none` means the heap was
empty (the loop exits). -/
def beautifyStep (K : MeshKit M E F) (n : Nat) (oflagEdge oflagFace : Bool)
    (st : BState M E F) : Option (BState M E F) :=
  match heapPopMin st.heap with
  | none => none
  | some (p, hrest) =>
    let c := p.1
    let e := p.2.1
    let i := st.eindex e
    let st0 : BState M E F := { st with heap := hrest, table := upd st.table i false }
    match K.rotate st0.mesh e with
    | none => some st0
    | some (m2, e2) =>
      let sig := erot_state_current (K.cfg m2 e2)
      let oldSet := (st0.stateArr i).getD []
      let st1 : BState M E F := { st0 with
        mesh := m2,
        stateArr := upd st0.stateArr i (some (sig :: oldSet)),
        arr := upd st0.arr i e2,
        eindex := upd st0.eindex e2 i,
        flips := (c, i, sig) :: st0.flips }
      let st2 := bm_edge_update_beauty_cost K n e2 st1
      let st3 := if oflagEdge then { st2 with etag := e2 :: st2.etag } else st2
      let st4 := if oflagFace then
          { st3 with ftag := (K.facesOf st3.mesh e2).1 :: (K.facesOf st3.mesh e2).2 :: st3.ftag }
        else st3
      some st4

/-- One slot of the heap-building loop: score `edge_array[i]`, queue it
when improving, then `BM_elem_index_set(e, i)`. -/
def seedSlot (K : MeshKit M E F) (i : Int) (st : BState M E F) : BState M E F :=
  let e := st.arr i
  let cost := K.cost st.mesh e
  let st1 := if cost < 0 then
      { st with heap := (cost, e, i) :: st.heap, table := upd st.table i true }
    else
      { st with table := upd st.table i false }
  { st1 with eindex := upd st1.eindex e i }

/-- The heap-building loop over slots `0 .. k-1` in increasing order. -/
def seedAll (K : MeshKit M E F) : Nat → BState M E F → BState M E F
  | 0, st => st
  | k + 1, st => seedSlot K (k : Int) (seedAll K k st)

/-- The state at invocation start: empty heap, all table cells null, no
signature set created, nothing tagged, no flip executed. -/
def initState (m0 : M) (arr0 : Int → E) (eidx0 : E → Int) : BState M E F :=
  { mesh := m0, arr := arr0, eindex := eidx0, heap := [],
    table := fun _ => false, stateArr := fun _ => none,
    etag := [], ftag := [], flips := [] }

/-- The RUNNING loop with explicit fuel: `none` means the fuel ran out
before the heap emptied. -/
def beautifyLoop (K : MeshKit M E F) (n : Nat) (oflagEdge oflagFace : Bool) :
    Nat → BState M E F → Option (BState M E F)
  | 0, st =>
    match beautifyStep K n oflagEdge oflagFace st with
    | none => some st
    | some _ => none
  | fuel + 1, st =>
    match beautifyStep K n oflagEdge oflagFace st with
    | none => some st
    | some st1 => beautifyLoop K n oflagEdge oflagFace fuel st1

/-- `BM_mesh_beautify_fill`: build the heap over the `n` candidate slots,
then run the pop / flip / rescore loop. -/
def BM_mesh_beautify_fill (K : MeshKit M E F) (n : Nat)
    (oflagEdge oflagFace : Bool) (fuel : Nat)
    (m0 : M) (arr0 : Int → E) (eidx0 : E → Int) : Option (BState M E F) :=
  beautifyLoop K n oflagEdge oflagFace fuel (seedAll K n (initState m0 arr0 eidx0))

/-- The flip log of a finished run (empty when the fuel ran out). -/
def flipsLog (r : Option (BState M E F)) : List (ℚ × Int × EdRotState) :=
  match r with
  | some st => st.flips
  | none => []

/-- The heap contents of a finished run (empty when the fuel ran out). -/
def heapOf (r : Option (BState M E F)) : List (ℚ × E × Int) :=
  match r with
  | some st => st.heap
  | none => []

/-- The candidate array of a run result, with a fallback for fuel
exhaustion. -/
def arrOf (r : Option (BState M E F)) (d : Int → E) : Int → E :=
  match r with
  | some st => st.arr
  | none => d

end Orchestrator

/-! ### Frame lemmas for the rescore helper -/

section FrameLemmas

variable {M E F : Type} [DecidableEq E]

theorem bm_single_frame (K : MeshKit M E F) (n : Nat) (e : E) (st : BState M E F) :
    (bm_edge_update_beauty_cost_single K n e st).mesh = st.mesh ∧
    (bm_edge_update_beauty_cost_single K n e st).arr = st.arr ∧
    (bm_edge_update_beauty_cost_single K n e st).eindex = st.eindex ∧
    (bm_edge_update_beauty_cost_single K n e st).stateArr = st.stateArr ∧
    (bm_edge_update_beauty_cost_single K n e st).etag = st.etag ∧
    (bm_edge_update_beauty_cost_single K n e st).ftag = st.ftag ∧
    (bm_edge_update_beauty_cost_single K n e st).flips = st.flips := by
  simp only [bm_edge_update_beauty_cost_single]
  split_ifs <;> exact ⟨rfl, rfl, rfl, rfl, rfl, rfl, rfl⟩

theorem bm_update_cost_frame (K : MeshKit M E F) (n : Nat) (e : E) (st : BState M E F) :
    (bm_edge_update_beauty_cost K n e st).mesh = st.mesh ∧
    (bm_edge_update_beauty_cost K n e st).arr = st.arr ∧
    (bm_edge_update_beauty_cost K n e st).eindex = st.eindex ∧
    (bm_edge_update_beauty_cost K n e st).stateArr = st.stateArr ∧
    (bm_edge_update_beauty_cost K n e st).etag = st.etag ∧
    (bm_edge_update_beauty_cost K n e st).ftag = st.ftag ∧
    (bm_edge_update_beauty_cost K n e st).flips = st.flips := by
  unfold bm_edge_update_beauty_cost
  obtain ⟨a1, a2, a3, a4, a5, a6, a7⟩ := bm_single_frame K n (K.nbrs st.mesh e).1 st
  obtain ⟨b1, b2, b3, b4, b5, b6, b7⟩ :=
    bm_single_frame K n (K.nbrs st.mesh e).2.1 (bm_edge_update_beauty_cost_single K n (K.nbrs st.mesh e).1 st)
  obtain ⟨c1, c2, c3, c4, c5, c6, c7⟩ :=
    bm_single_frame K n (K.nbrs st.mesh e).2.2.1
      (bm_edge_update_beauty_cost_single K n (K.nbrs st.mesh e).2.1
        (bm_edge_update_beauty_cost_single K n (K.nbrs st.mesh e).1 st))
  obtain ⟨d1, d2, d3, d4, d5, d6, d7⟩ :=
    bm_single_frame K n (K.nbrs st.mesh e).2.2.2
      (bm_edge_update_beauty_cost_single K n (K.nbrs st.mesh e).2.2.1
        (bm_edge_update_beauty_cost_single K n (K.nbrs st.mesh e).2.1
          (bm_edge_update_beauty_cost_single K n (K.nbrs st.mesh e).1 st)))
  refine ⟨?_, ?_, ?_, ?_, ?_, ?_, ?_⟩ <;> simp_all

end FrameLemmas

/-! ### A small concrete collaborator: an oscillating quad

Vertices `0,1,2,3`: the diagonal flips for ever between the `(1,2)` and
`(0,3)` orientations.  The mesh is a flip counter; after `m` flips the
live diagonal is the edge with id `m` whose orientation is given by the
parity of its id.  The metric always reports an improvement (`-1`), the
situation the source file's own header comment warns about ("edges keep
rotating").  Rotation only succeeds on the live diagonal and returns the
fresh id `m + 1`; `nbrs` reports the flipped edge itself so the rescore
path and its cycle check are exercised. -/

def oscKit : MeshKit Nat Int Unit where
  cost := fun _ _ => -1
  cfg := fun _ x => if x % 2 = 0 then ⟨1, 2, 0, 3⟩ else ⟨0, 3, 1, 2⟩
  rotate := fun m e => if e = (m : Int) then some (m + 1, (m : Int) + 1) else none
  nbrs := fun _ e => (e, e, e, e)
  facesOf := fun _ _ => ((), ())
  memEdge := fun m e => decide (e ≤ (m : Int))

/-- Initial candidate array for `oscKit`: the single slot 0 holds edge 0. -/
def oscArr : Int → Int := fun j => j

/-- Initial `BM_elem_index` values for `oscKit`: all dirty. -/
def oscIdx : Int → Int := fun _ => -1

/-! ### C3: the cycle-avoidance skip -/

/-- **C3** — When the slot of an in-array edge already has a signature set
containing the signature the slot would have after flipping
(`erot_state_alternate`), `bm_edge_update_beauty_cost_single` removes the
edge's stale heap entry, nulls its table cell and returns without
re-inserting: the resulting state is the input state with exactly the
slot's heap entry filtered out and its table cell cleared. -/
theorem cycle_check_skips_requeue {M E F : Type} [DecidableEq E]
    (K : MeshKit M E F) (n : Nat) (e : E) (st : BState M E F)
    (l : List EdRotState)
    (h1 : 0 ≤ st.eindex e) (h2 : st.eindex e < (n : Int))
    (h3 : st.arr (st.eindex e) = e)
    (h4 : st.stateArr (st.eindex e) = some l)
    (h5 : erot_state_alternate (K.cfg st.mesh e) ∈ l)
    (h6 : st.table (st.eindex e) = true) :
    bm_edge_update_beauty_cost_single K n e st =
      { st with heap := st.heap.filter (fun p => decide (p.2.2 ≠ st.eindex e)),
                table := upd st.table (st.eindex e) false } := by
  unfold bm_edge_update_beauty_cost_single
  rw [if_pos ⟨h1, h2, h3⟩]
  simp only [h6, if_true]
  simp [h4, h5]

/-- Witness for C3 at a concrete state: slot 0 holds edge 1, its set
already contains the post-flip signature, so the stale entry is dropped
and nothing is re-queued. -/
def c3State : BState Nat Int Unit :=
  { mesh := 1, arr := fun j => if j = 0 then 1 else j,
    eindex := fun x => if x = 1 then 0 else -1,
    heap := [(-1, 1, 0)],
    table := fun j => decide (j = 0),
    stateArr := fun j => if j = 0 then some [erot_state_alternate (oscKit.cfg 1 1)] else none,
    etag := [], ftag := [], flips := [] }

theorem cycle_check_skips_requeue_witness :
    bm_edge_update_beauty_cost_single oscKit 1 1 c3State =
      { c3State with
          heap := c3State.heap.filter (fun p => decide (p.2.2 ≠ c3State.eindex 1)),
          table := upd c3State.table (c3State.eindex 1) false } :=
  cycle_check_skips_requeue oscKit 1 1 c3State
    [erot_state_alternate (oscKit.cfg 1 1)]
    (by decide) (by decide) (by decide) (by decide) (by decide) (by decide)

section EasyClaims

variable {M E F : Type} [DecidableEq E]

theorem bm_update_cost_arr (K : MeshKit M E F) (n : Nat) (e : E) (st : BState M E F) :
    (bm_edge_update_beauty_cost K n e st).arr = st.arr :=
  (bm_update_cost_frame K n e st).2.1

theorem bm_update_cost_mesh (K : MeshKit M E F) (n : Nat) (e : E) (st : BState M E F) :
    (bm_edge_update_beauty_cost K n e st).mesh = st.mesh :=
  (bm_update_cost_frame K n e st).1

theorem bm_update_cost_stateArr (K : MeshKit M E F) (n : Nat) (e : E) (st : BState M E F) :
    (bm_edge_update_beauty_cost K n e st).stateArr = st.stateArr :=
  (bm_update_cost_frame K n e st).2.2.2.1

theorem bm_update_cost_eindex (K : MeshKit M E F) (n : Nat) (e : E) (st : BState M E F) :
    (bm_edge_update_beauty_cost K n e st).eindex = st.eindex :=
  (bm_update_cost_frame K n e st).2.2.1

theorem bm_update_cost_flips (K : MeshKit M E F) (n : Nat) (e : E) (st : BState M E F) :
    (bm_edge_update_beauty_cost K n e st).flips = st.flips :=
  (bm_update_cost_frame K n e st).2.2.2.2.2.2

/-- **C6** — A refused rotation is absorbed silently and atomically: the
step only removes the popped heap entry and nulls the popped slot's table
cell; the mesh, the candidate array, the per-slot signature sets, the
`BM_elem_index` side channel, both tag lists and the flip log all keep
their previous values, and the loop proceeds to the next pop. -/
theorem refusal_is_silent (K : MeshKit M E F) (n : Nat)
    (oflagEdge oflagFace : Bool) (st : BState M E F)
    (p : ℚ × E × Int) (hrest : List (ℚ × E × Int))
    (hpop : heapPopMin st.heap = some (p, hrest))
    (hrot : K.rotate st.mesh p.2.1 = none) :
    beautifyStep K n oflagEdge oflagFace st =
      some { st with heap := hrest, table := upd st.table (st.eindex p.2.1) false } := by
  unfold beautifyStep
  rw [hpop]
  simp [hrot]

/-- A concrete state whose queued edge the collaborator refuses to rotate
(`oscKit` only rotates the live diagonal, and edge 5 is not it). -/
def refuseState : BState Nat Int Unit :=
  { mesh := 0, arr := fun j => if j = 0 then 5 else j,
    eindex := fun x => if x = 5 then 0 else -1,
    heap := [(-1, 5, 0)],
    table := fun j => decide (j = 0),
    stateArr := fun _ => none,
    etag := [], ftag := [], flips := [] }

theorem refusal_is_silent_witness :
    beautifyStep oscKit 1 false false refuseState =
      some { refuseState with
              heap := [],
              table := upd refuseState.table (refuseState.eindex 5) false } :=
  refusal_is_silent oscKit 1 false false refuseState (-1, 5, 0) []
    (by decide) (by decide)

/-- A concrete state whose queued edge rotates successfully: slot 0 holds
the live diagonal 0 of `oscKit`, and the rotation yields edge 1. -/
def flipState : BState Nat Int Unit :=
  { mesh := 0, arr := fun j => j,
    eindex := fun x => if x = 0 then 0 else -1,
    heap := [(-1, 0, 0)],
    table := fun j => decide (j = 0),
    stateArr := fun _ => none,
    etag := [], ftag := [], flips := [] }

/-- **C9** — The candidate array is overwritten in place with order
preserved by slot: when the popped edge's rotation succeeds with new edge
`e2`, the resulting array is exactly the old array with the popped slot's
entry replaced by `e2` (every other slot untouched); when the rotation is
refused, the array is unchanged. -/
theorem candidate_array_frame (K : MeshKit M E F) (n : Nat)
    (oflagEdge oflagFace : Bool) (st : BState M E F)
    (p : ℚ × E × Int) (hrest : List (ℚ × E × Int))
    (hpop : heapPopMin st.heap = some (p, hrest)) :
    (∀ m2 e2, K.rotate st.mesh p.2.1 = some (m2, e2) →
      arrOf (beautifyStep K n oflagEdge oflagFace st) st.arr =
        upd st.arr (st.eindex p.2.1) e2) ∧
    (K.rotate st.mesh p.2.1 = none →
      arrOf (beautifyStep K n oflagEdge oflagFace st) st.arr = st.arr) := by
  constructor
  · intro m2 e2 hrot
    cases oflagEdge <;> cases oflagFace <;>
      simp [beautifyStep, hpop, hrot, arrOf, bm_update_cost_arr]
  · intro hrot
    simp [beautifyStep, hpop, hrot, arrOf]

theorem candidate_array_frame_witness :
    arrOf (beautifyStep oscKit 1 false false flipState) flipState.arr =
      upd flipState.arr (flipState.eindex 0) 1 :=
  (candidate_array_frame oscKit 1 false false flipState (-1, 0, 0) []
    (by decide)).1 1 1 (by decide)

/-! ### C10: absent signature sets never block queuing -/

theorem seedSlot_frame (K : MeshKit M E F) (i : Int) (st : BState M E F) :
    (seedSlot K i st).mesh = st.mesh ∧
    (seedSlot K i st).arr = st.arr ∧
    (seedSlot K i st).stateArr = st.stateArr ∧
    (seedSlot K i st).etag = st.etag ∧
    (seedSlot K i st).ftag = st.ftag ∧
    (seedSlot K i st).flips = st.flips := by
  simp only [seedSlot]
  split_ifs <;> exact ⟨rfl, rfl, rfl, rfl, rfl, rfl⟩

theorem seedAll_frame (K : MeshKit M E F) (k : Nat) (st : BState M E F) :
    (seedAll K k st).mesh = st.mesh ∧
    (seedAll K k st).arr = st.arr ∧
    (seedAll K k st).stateArr = st.stateArr ∧
    (seedAll K k st).etag = st.etag ∧
    (seedAll K k st).ftag = st.ftag ∧
    (seedAll K k st).flips = st.flips := by
  induction k with
  | zero => exact ⟨rfl, rfl, rfl, rfl, rfl, rfl⟩
  | succ k ih =>
    obtain ⟨s1, s2, s3, s4, s5, s6⟩ := seedSlot_frame K (k : Int) (seedAll K k st)
    exact ⟨s1.trans ih.1, s2.trans ih.2.1, s3.trans ih.2.2.1,
      s4.trans ih.2.2.2.1, s5.trans ih.2.2.2.2.1, s6.trans ih.2.2.2.2.2⟩

/-- Heap-building queues every slot whose initial score is improving:
no cycle check exists in the seeding loop. -/
theorem seed_queues_negative (K : MeshKit M E F) (m0 : M)
    (arr0 : Int → E) (eidx0 : E → Int) (k : Nat) (i : Nat) (hik : i < k)
    (hneg : K.cost m0 (arr0 i) < 0) :
    (K.cost m0 (arr0 i), arr0 i, (i : Int)) ∈
      (seedAll K k (initState m0 arr0 eidx0)).heap ∧
    (seedAll K k (initState m0 arr0 eidx0)).table i = true := by
  induction k with
  | zero => omega
  | succ k ih =>
    rcases Nat.lt_succ_iff_lt_or_eq.mp hik with hik1 | rfl
    · obtain ⟨hmem, htab⟩ := ih hik1
      have hne : ((i : Int)) ≠ ((k : Int)) := by
        simp only [ne_eq, Nat.cast_inj]
        omega
      constructor
      · show _ ∈ (seedSlot K (k : Int) (seedAll K k (initState m0 arr0 eidx0))).heap
        simp only [seedSlot]
        split_ifs <;> simp [hmem]
      · show (seedSlot K (k : Int) (seedAll K k (initState m0 arr0 eidx0))).table i = true
        simp only [seedSlot]
        split_ifs <;> simp [upd_ne _ _ _ hne, htab]
    · have hmesh : (seedAll K i (initState m0 arr0 eidx0 (F := F))).mesh = m0 :=
        (seedAll_frame K i (initState m0 arr0 eidx0)).1
      have harr : (seedAll K i (initState m0 arr0 eidx0 (F := F))).arr = arr0 :=
        (seedAll_frame K i (initState m0 arr0 eidx0)).2.1
      constructor
      · show _ ∈ (seedSlot K (i : Int) (seedAll K i (initState m0 arr0 eidx0))).heap
        simp only [seedSlot, hmesh, harr]
        rw [if_pos hneg]
        exact List.mem_cons_self _ _
      · show (seedSlot K (i : Int) (seedAll K i (initState m0 arr0 eidx0))).table i = true
        simp only [seedSlot, hmesh, harr]
        rw [if_pos hneg]
        exact upd_same _ _ _

/-- **C10** — A slot with no signature set yet is never blocked by the
cycle check: (a) during rescoring, `bm_edge_update_beauty_cost_single`
bypasses the membership test when `edge_state_arr[i]` is null and queues
the edge whenever its fresh score is improving; (b) the initial seeding
performs no cycle check at all and queues every candidate slot whose score
is improving. -/
theorem absent_state_set_always_requeues (K : MeshKit M E F) (n : Nat) :
    (∀ (st : BState M E F) (e : E),
      0 ≤ st.eindex e → st.eindex e < (n : Int) → st.arr (st.eindex e) = e →
      st.stateArr (st.eindex e) = none → K.cost st.mesh e < 0 →
      (K.cost st.mesh e, e, st.eindex e) ∈
        (bm_edge_update_beauty_cost_single K n e st).heap ∧
      (bm_edge_update_beauty_cost_single K n e st).table (st.eindex e) = true) ∧
    (∀ (m0 : M) (arr0 : Int → E) (eidx0 : E → Int) (i : Nat), i < n →
      K.cost m0 (arr0 i) < 0 →
      (K.cost m0 (arr0 i), arr0 i, (i : Int)) ∈
        (seedAll K n (initState m0 arr0 eidx0)).heap ∧
      (seedAll K n (initState m0 arr0 eidx0)).table i = true) := by
  constructor
  · intro st e h1 h2 h3 h4 h5
    simp only [bm_edge_update_beauty_cost_single]
    rw [if_pos ⟨h1, h2, h3⟩]
    by_cases ht : st.table (st.eindex e) = true <;>
      simp [ht, h4, h5, upd_same]
  · intro m0 arr0 eidx0 i hi hneg
    exact seed_queues_negative K m0 arr0 eidx0 n i hi hneg

theorem absent_state_set_always_requeues_witness :
    (((-1 : ℚ), (5 : Int), (0 : Int)) ∈
        (bm_edge_update_beauty_cost_single oscKit 1 5 refuseState).heap ∧
      (bm_edge_update_beauty_cost_single oscKit 1 5 refuseState).table 0 = true) ∧
    (((-1 : ℚ), (0 : Int), (0 : Int)) ∈
        (seedAll oscKit 1 (initState 0 oscArr oscIdx)).heap ∧
      (seedAll oscKit 1 (initState 0 oscArr oscIdx)).table 0 = true) :=
  ⟨(absent_state_set_always_requeues oscKit 1).1 refuseState 5
      (by decide) (by decide) (by decide) (by decide) (by decide),
   (absent_state_set_always_requeues oscKit 1).2 0 oscArr oscIdx 0
      (by decide) (by decide)⟩

end EasyClaims

/-! ### Heap order lemmas -/

section HeapLemmas

variable {E : Type}

theorem heapPopMin_eq_none {h : List (ℚ × E × Int)} :
    heapPopMin h = none ↔ h = [] := by
  constructor
  · intro hc
    cases h with
    | nil => rfl
    | cons x xs =>
      exfalso
      unfold heapPopMin at hc
      rcases hm : heapPopMin xs with _ | pr
      · rw [hm] at hc
        simp at hc
      · obtain ⟨m, r⟩ := pr
        rw [hm] at hc
        dsimp at hc
        split_ifs at hc
  · rintro rfl
    rfl

theorem heapPopMin_perm {h : List (ℚ × E × Int)} {p : ℚ × E × Int}
    {rest : List (ℚ × E × Int)} (hpop : heapPopMin h = some (p, rest)) :
    h.Perm (p :: rest) := by
  induction h generalizing p rest with
  | nil => exact Option.noConfusion hpop
  | cons x xs ih =>
    unfold heapPopMin at hpop
    rcases hm : heapPopMin xs with _ | pr
    · rw [hm] at hpop
      dsimp at hpop
      have hxs : xs = [] := heapPopMin_eq_none.mp hm
      subst hxs
      obtain ⟨rfl, rfl⟩ : x = p ∧ [] = rest := by
        have := Option.some.inj hpop
        exact ⟨congrArg Prod.fst this, congrArg Prod.snd this⟩
      exact List.Perm.refl _
    · obtain ⟨m, r⟩ := pr
      rw [hm] at hpop
      dsimp at hpop
      split_ifs at hpop
      · obtain ⟨rfl, rfl⟩ : x = p ∧ xs = rest := by
          have := Option.some.inj hpop
          exact ⟨congrArg Prod.fst this, congrArg Prod.snd this⟩
        exact List.Perm.refl _
      · obtain ⟨rfl, rfl⟩ : m = p ∧ x :: r = rest := by
          have := Option.some.inj hpop
          exact ⟨congrArg Prod.fst this, congrArg Prod.snd this⟩
        exact ((ih hm).cons x).trans (List.Perm.swap m x r)

theorem heapPopMin_mem {h : List (ℚ × E × Int)} {p : ℚ × E × Int}
    {rest : List (ℚ × E × Int)} (hpop : heapPopMin h = some (p, rest)) :
    p ∈ h :=
  (heapPopMin_perm hpop).symm.subset (List.mem_cons_self _ _)

theorem heapPopMin_rest_mem {h : List (ℚ × E × Int)} {p : ℚ × E × Int}
    {rest : List (ℚ × E × Int)} (hpop : heapPopMin h = some (p, rest)) :
    ∀ q ∈ rest, q ∈ h :=
  fun q hq => (heapPopMin_perm hpop).symm.subset (List.mem_cons_of_mem _ hq)

theorem heapPopMin_length {h : List (ℚ × E × Int)} {p : ℚ × E × Int}
    {rest : List (ℚ × E × Int)} (hpop : heapPopMin h = some (p, rest)) :
    h.length = rest.length + 1 := by
  have := (heapPopMin_perm hpop).length_eq
  simpa using this

end HeapLemmas

/-! ### C4: every queued score is negative -/

section NegClaims

variable {M E F : Type} [DecidableEq E]

/-- All current heap entries carry an improving (negative) score. -/
def NegHeap (st : BState M E F) : Prop := ∀ p ∈ st.heap, p.1 < 0

/-- All logged flips were popped with an improving score. -/
def NegLog (st : BState M E F) : Prop := ∀ p ∈ st.flips, p.1 < 0

theorem single_heap_mem (K : MeshKit M E F) (n : Nat) (e : E) (st : BState M E F) :
    ∀ q ∈ (bm_edge_update_beauty_cost_single K n e st).heap,
      q ∈ st.heap ∨ q.1 < 0 := by
  intro q hq
  simp only [bm_edge_update_beauty_cost_single] at hq
  split_ifs at hq <;>
    first
    | exact Or.inl hq
    | exact Or.inl (List.mem_of_mem_filter hq)
    | (rcases List.mem_cons.mp hq with rfl | hq2
       · right
         assumption
       · first
         | exact Or.inl (List.mem_of_mem_filter hq2)
         | exact Or.inl hq2)

theorem update_cost_heap_mem (K : MeshKit M E F) (n : Nat) (e : E) (st : BState M E F) :
    ∀ q ∈ (bm_edge_update_beauty_cost K n e st).heap,
      q ∈ st.heap ∨ q.1 < 0 := by
  intro q hq
  unfold bm_edge_update_beauty_cost at hq
  rcases single_heap_mem K n _ _ q hq with h3 | h3
  · rcases single_heap_mem K n _ _ q h3 with h2 | h2
    · rcases single_heap_mem K n _ _ q h2 with h1 | h1
      · rcases single_heap_mem K n _ _ q h1 with h0 | h0
        · exact Or.inl h0
        · exact Or.inr h0
      · exact Or.inr h1
    · exact Or.inr h2
  · exact Or.inr h3

theorem step_neg (K : MeshKit M E F) (n : Nat) (oflagEdge oflagFace : Bool)
    (st st' : BState M E F) (hH : NegHeap st) (hL : NegLog st)
    (hstep : beautifyStep K n oflagEdge oflagFace st = some st') :
    NegHeap st' ∧ NegLog st' := by
  unfold beautifyStep at hstep
  rcases hpop : heapPopMin st.heap with _ | pr
  · rw [hpop] at hstep
    exact Option.noConfusion hstep
  · obtain ⟨p, hrest⟩ := pr
    rw [hpop] at hstep
    dsimp at hstep
    have hpneg : p.1 < 0 := hH p (heapPopMin_mem hpop)
    have hrestneg : ∀ q ∈ hrest, q.1 < 0 :=
      fun q hq => hH q (heapPopMin_rest_mem hpop q hq)
    rcases hrot : K.rotate st.mesh p.2.1 with _ | mr
    · rw [hrot] at hstep
      obtain rfl := Option.some.inj hstep
      exact ⟨fun q hq => hrestneg q hq, hL⟩
    · obtain ⟨m2, e2⟩ := mr
      rw [hrot] at hstep
      dsimp at hstep
      obtain rfl := Option.some.inj hstep
      constructor
      · intro q hq
        cases oflagEdge <;> cases oflagFace <;>
          dsimp at hq <;>
          · rcases update_cost_heap_mem K n e2 _ q hq with h1 | h1
            · exact hrestneg q h1
            · exact h1
      · intro q hq
        cases oflagEdge <;> cases oflagFace <;>
          dsimp at hq <;>
          · rw [(bm_update_cost_frame K n e2 _).2.2.2.2.2.2] at hq
            rcases List.mem_cons.mp hq with rfl | hq2
            · exact hpneg
            · exact hL q hq2

theorem seedSlot_neg (K : MeshKit M E F) (i : Int) (st : BState M E F)
    (hH : NegHeap st) : NegHeap (seedSlot K i st) := by
  intro q hq
  simp only [seedSlot] at hq
  split_ifs at hq <;> dsimp at hq
  · rcases List.mem_cons.mp hq with rfl | hq2
    · assumption
    · exact hH q hq2
  · exact hH q hq

theorem seedAll_neg (K : MeshKit M E F) (k : Nat) (st : BState M E F)
    (hH : NegHeap st) : NegHeap (seedAll K k st) := by
  induction k with
  | zero => exact hH
  | succ k ih => exact seedSlot_neg K _ _ ih

theorem loop_neg (K : MeshKit M E F) (n : Nat) (oflagEdge oflagFace : Bool) :
    ∀ (fuel : Nat) (st : BState M E F), NegHeap st → NegLog st →
      (∀ p ∈ heapOf (beautifyLoop K n oflagEdge oflagFace fuel st), p.1 < 0) ∧
      (∀ p ∈ flipsLog (beautifyLoop K n oflagEdge oflagFace fuel st), p.1 < 0) := by
  intro fuel
  induction fuel with
  | zero =>
    intro st hH hL
    unfold beautifyLoop
    rcases hs : beautifyStep K n oflagEdge oflagFace st with _ | st1 <;>
      simp only [heapOf, flipsLog]
    · exact ⟨hH, hL⟩
    · simp
  | succ fuel ih =>
    intro st hH hL
    unfold beautifyLoop
    rcases hs : beautifyStep K n oflagEdge oflagFace st with _ | st1
    · exact ⟨hH, hL⟩
    · obtain ⟨h1, h2⟩ := step_neg K n oflagEdge oflagFace st st1 hH hL hs
      exact ih st1 h1 h2

/-- **C4** — Every heap insertion (initial seeding and post-flip
rescoring alike) happens only under the `cost < 0` guard, so in the result
of any run every remaining heap entry and, more importantly, every popped
and executed flip carried a strictly negative score at the moment it was
queued. -/
theorem queued_scores_negative (K : MeshKit M E F) (n : Nat)
    (oflagEdge oflagFace : Bool) (fuel : Nat)
    (m0 : M) (arr0 : Int → E) (eidx0 : E → Int) :
    (∀ p ∈ heapOf (BM_mesh_beautify_fill K n oflagEdge oflagFace fuel m0 arr0 eidx0),
      p.1 < 0) ∧
    (∀ p ∈ flipsLog (BM_mesh_beautify_fill K n oflagEdge oflagFace fuel m0 arr0 eidx0),
      p.1 < 0) := by
  unfold BM_mesh_beautify_fill
  refine loop_neg K n oflagEdge oflagFace fuel _ ?_ ?_
  · exact seedAll_neg K n _ (fun q hq => absurd hq (List.not_mem_nil q))
  · have hfl : (seedAll K n (initState m0 arr0 eidx0 (F := F))).flips = [] :=
      (seedAll_frame K n (initState m0 arr0 eidx0)).2.2.2.2.2
    intro q hq
    rw [hfl] at hq
    exact absurd hq (List.not_mem_nil q)

/-- Witness for C4: in the two-flip oscillating run, the first recorded
flip is a member of the log and its queued score was negative. -/
theorem queued_scores_negative_witness :
    ((-1 : ℚ), (0 : Int), (⟨1, 2, 0, 3⟩ : EdRotState)) ∈
        flipsLog (BM_mesh_beautify_fill oscKit 1 false false 9 0 oscArr oscIdx) ∧
      ((-1 : ℚ), (0 : Int), (⟨1, 2, 0, 3⟩ : EdRotState)).1 < 0 :=
  ⟨by decide,
   (queued_scores_negative oscKit 1 false false 9 0 oscArr oscIdx).2
     ((-1 : ℚ), (0 : Int), (⟨1, 2, 0, 3⟩ : EdRotState)) (by decide)⟩

end NegClaims

/-! ### The cycle-avoidance invariant and termination

The remaining claims (termination, no-revisit) rest on the spec's
collaborator contracts: rotation turns the current local configuration
into its alternate, produces a genuinely new edge, only changes the local
configurations of the flipped edge and its four boundary edges, and all
vertex indices come from the mesh's finite vertex pool. -/

/-- All four indices of a signature lie in `[0, V)`. -/
def SigInRange (V : Nat) (g : EdRotState) : Prop :=
  0 ≤ g.v0 ∧ g.v0 < (V : Int) ∧ 0 ≤ g.v1 ∧ g.v1 < (V : Int) ∧
  0 ≤ g.f0 ∧ g.f0 < (V : Int) ∧ 0 ≤ g.f1 ∧ g.f1 < (V : Int)

/-- All four indices of a local configuration lie in `[0, V)`. -/
def CfgInRange (V : Nat) (c : LocalCfg) : Prop :=
  0 ≤ c.ev1 ∧ c.ev1 < (V : Int) ∧ 0 ≤ c.ev2 ∧ c.ev2 < (V : Int) ∧
  0 ≤ c.fa ∧ c.fa < (V : Int) ∧ 0 ≤ c.fb ∧ c.fb < (V : Int)

theorem edgeOrd_cases (a b : Int) :
    ((edgeOrd a b).1 = a ∧ (edgeOrd a b).2 = b) ∨
    ((edgeOrd a b).1 = b ∧ (edgeOrd a b).2 = a) := by
  unfold edgeOrd
  split_ifs <;> simp

theorem sig_in_range_current (V : Nat) (c : LocalCfg) (h : CfgInRange V c) :
    SigInRange V (erot_state_current c) := by
  obtain ⟨h1, h2, h3, h4, h5, h6, h7, h8⟩ := h
  simp only [erot_state_current, SigInRange]
  rcases edgeOrd_cases c.ev1 c.ev2 with ⟨ha, hb⟩ | ⟨ha, hb⟩ <;>
    rcases edgeOrd_cases c.fa c.fb with ⟨hc2, hd⟩ | ⟨hc2, hd⟩ <;>
      rw [ha, hb, hc2, hd] <;> omega

/-- A signature as a bare 4-tuple of indices. -/
def sigTuple (g : EdRotState) : Int × Int × Int × Int := (g.v0, g.v1, g.f0, g.f1)

theorem sigTuple_inj : Function.Injective sigTuple := by
  intro a b h
  cases a
  cases b
  simpa [sigTuple, EdRotState.mk.injEq, Prod.ext_iff] using h

/-- A duplicate-free list of signatures over a vertex pool of size `V`
has at most `V ^ 4` elements: the finiteness half of the termination
argument. -/
theorem ranged_nodup_length_le (V : Nat) (l : List EdRotState)
    (hnd : l.Nodup) (hr : ∀ g ∈ l, SigInRange V g) : l.length ≤ V ^ 4 := by
  classical
  have hmapnd : (l.map sigTuple).Nodup := hnd.map sigTuple_inj
  have hsub : (l.map sigTuple).toFinset ⊆
      (Finset.Ico (0 : Int) (V : Int)) ×ˢ ((Finset.Ico (0 : Int) (V : Int)) ×ˢ
        ((Finset.Ico (0 : Int) (V : Int)) ×ˢ (Finset.Ico (0 : Int) (V : Int)))) := by
    intro x hx
    rw [List.mem_toFinset, List.mem_map] at hx
    obtain ⟨g, hg, rfl⟩ := hx
    have hrg := hr g hg
    simp only [SigInRange] at hrg
    simp only [sigTuple, Finset.mem_product, Finset.mem_Ico]
    exact ⟨⟨hrg.1, hrg.2.1⟩, ⟨hrg.2.2.1, hrg.2.2.2.1⟩,
      ⟨hrg.2.2.2.2.1, hrg.2.2.2.2.2.1⟩, hrg.2.2.2.2.2.2.1, hrg.2.2.2.2.2.2.2⟩
  have hlen : l.length = (l.map sigTuple).toFinset.card := by
    rw [List.toFinset_card_of_nodup hmapnd, List.length_map]
  have hcard := Finset.card_le_card hsub
  have hprod : ((Finset.Ico (0 : Int) (V : Int)) ×ˢ ((Finset.Ico (0 : Int) (V : Int)) ×ˢ
      ((Finset.Ico (0 : Int) (V : Int)) ×ˢ (Finset.Ico (0 : Int) (V : Int))))).card
        = V ^ 4 := by
    simp only [Finset.card_product, Int.card_Ico, Int.sub_zero, Int.toNat_natCast]
    ring
  omega

section InvariantPkg

variable {M E F : Type} [DecidableEq E]

/-- Modelled from the spec: the contracts the surrounding mesh library
(outside the sources) guarantees to the orchestrator.

* `cfg_range` — vertex indices come from the mesh's finite vertex pool
  (the spec: "total configurations per slot are finite");
* `rot_sig` — a flip replaces the quad's diagonal by the other diagonal,
  so the rotated edge's current signature is the old edge's alternate
  (the spec: the post-flip signature swaps the endpoint and apex pairs);
* `rot_new_fresh`, `rot_new_mem` — `BM_EDGEROT_CHECK_EXISTS`: rotation
  refuses rather than duplicate an existing edge, so the returned edge is
  new to the mesh;
* `rot_pers` — other edges survive the local mutation;
* `rot_frame` — a flip only changes the local configurations of the
  rotated edge and the four boundary edges of its two triangles. -/
structure Contracts (K : MeshKit M E F) (V : Nat) : Prop where
  cfg_range : ∀ m e, CfgInRange V (K.cfg m e)
  rot_sig : ∀ m e m2 e2, K.rotate m e = some (m2, e2) →
    erot_state_current (K.cfg m2 e2) = erot_state_alternate (K.cfg m e)
  rot_new_fresh : ∀ m e m2 e2, K.rotate m e = some (m2, e2) →
    K.memEdge m e2 = false
  rot_new_mem : ∀ m e m2 e2, K.rotate m e = some (m2, e2) →
    K.memEdge m2 e2 = true
  rot_pers : ∀ m e m2 e2, K.rotate m e = some (m2, e2) →
    ∀ x, K.memEdge m x = true → K.memEdge m2 x = true
  rot_frame : ∀ m e m2 e2, K.rotate m e = some (m2, e2) →
    ∀ x, x ≠ e2 → x ≠ (K.nbrs m2 e2).1 → x ≠ (K.nbrs m2 e2).2.1 →
      x ≠ (K.nbrs m2 e2).2.2.1 → x ≠ (K.nbrs m2 e2).2.2.2 →
      K.cfg m2 x = K.cfg m x

/-- A well-formed heap entry: its slot is a valid array position, the
`BM_elem_index` side channel and the candidate array both point at the
entry's edge, the slot's table cell is live, and the stored score is
improving. -/
def EntryOK (n : Nat) (st : BState M E F) (p : ℚ × E × Int) : Prop :=
  0 ≤ p.2.2 ∧ p.2.2 < (n : Int) ∧ st.eindex p.2.1 = p.2.2 ∧
    st.arr p.2.2 = p.2.1 ∧ st.table p.2.2 = true ∧ p.1 < 0

/-- The entry's post-flip signature is not yet recorded at its slot: the
fact the cycle check established when the entry was queued. -/
def EntryFresh (K : MeshKit M E F) (st : BState M E F) (p : ℚ × E × Int) : Prop :=
  ∀ l, st.stateArr p.2.2 = some l →
    erot_state_alternate (K.cfg st.mesh p.2.1) ∉ l

/-- The mesh-independent part of the loop invariant. -/
structure InvCore (K : MeshKit M E F) (n V : Nat) (st : BState M E F) : Prop where
  entries : ∀ p ∈ st.heap, EntryOK n st p
  slots_nd : (st.heap.map (fun p => p.2.2)).Nodup
  arr_inj : ∀ s t : Int, 0 ≤ s → s < (n : Int) → 0 ≤ t → t < (n : Int) →
    st.arr s = st.arr t → s = t
  arr_mem : ∀ s : Int, 0 ≤ s → s < (n : Int) → K.memEdge st.mesh (st.arr s) = true
  sets_ok : ∀ s l, st.stateArr s = some l → l.Nodup ∧ ∀ g ∈ l, SigInRange V g
  log_sets : ∀ p ∈ st.flips, ∃ l, st.stateArr p.2.1 = some l ∧ p.2.2 ∈ l
  log_nd : (st.flips.map (fun p => p.2)).Nodup

/-- The full loop invariant: the core plus freshness of every queued
entry's post-flip signature. -/
def LoopInv (K : MeshKit M E F) (n V : Nat) (st : BState M E F) : Prop :=
  InvCore K n V st ∧ ∀ p ∈ st.heap, EntryFresh K st p

/-- Total number of recorded signatures over all slots. -/
def setsSize (n : Nat) (st : BState M E F) : Nat :=
  ∑ k ∈ Finset.range n, ((st.stateArr (k : Int)).map List.length).getD 0

/-- The termination measure: refusals shrink the heap, flips strictly
grow a signature set while adding at most three net heap entries. -/
def mu (n V : Nat) (st : BState M E F) : Nat :=
  4 * (n * V ^ 4 - setsSize n st) + st.heap.length

end InvariantPkg

section SinglePres

variable {M E F : Type} [DecidableEq E]

/-- The stale-entry removal step of `bm_edge_update_beauty_cost_single`. -/
def dropStaleEntry (i : Int) (st : BState M E F) : BState M E F :=
  if st.table i then
    { st with heap := st.heap.filter (fun p => decide (p.2.2 ≠ i)),
              table := upd st.table i false }
  else st

/-- The re-insertion step of `bm_edge_update_beauty_cost_single`. -/
def requeueEdge (K : MeshKit M E F) (e : E) (i : Int) (st : BState M E F) :
    BState M E F :=
  let cost := K.cost st.mesh e
  if cost < 0 then
    { st with heap := (cost, e, i) :: st.heap, table := upd st.table i true }
  else
    { st with table := upd st.table i false }

theorem single_decompose (K : MeshKit M E F) (n : Nat) (e : E) (st : BState M E F) :
    bm_edge_update_beauty_cost_single K n e st =
      if 0 ≤ st.eindex e ∧ st.eindex e < (n : Int) ∧ st.arr (st.eindex e) = e then
        (if (match (dropStaleEntry (st.eindex e) st).stateArr (st.eindex e) with
             | some l => decide (erot_state_alternate
                 (K.cfg (dropStaleEntry (st.eindex e) st).mesh e) ∈ l)
             | none => false)
         then dropStaleEntry (st.eindex e) st
         else requeueEdge K e (st.eindex e) (dropStaleEntry (st.eindex e) st))
      else st := rfl

theorem dropStale_frame (i : Int) (st : BState M E F) :
    (dropStaleEntry i st).mesh = st.mesh ∧
    (dropStaleEntry i st).arr = st.arr ∧
    (dropStaleEntry i st).eindex = st.eindex ∧
    (dropStaleEntry i st).stateArr = st.stateArr ∧
    (dropStaleEntry i st).etag = st.etag ∧
    (dropStaleEntry i st).ftag = st.ftag ∧
    (dropStaleEntry i st).flips = st.flips := by
  simp only [dropStaleEntry]
  split_ifs <;> exact ⟨rfl, rfl, rfl, rfl, rfl, rfl, rfl⟩

theorem dropStale_heap_sub (i : Int) (st : BState M E F) :
    ∀ p ∈ (dropStaleEntry i st).heap, p ∈ st.heap := by
  intro p hp
  simp only [dropStaleEntry] at hp
  split_ifs at hp
  · exact List.mem_of_mem_filter hp
  · exact hp

theorem dropStale_heap_len (i : Int) (st : BState M E F) :
    (dropStaleEntry i st).heap.length ≤ st.heap.length := by
  simp only [dropStaleEntry]
  split_ifs
  · exact List.length_filter_le _ _
  · exact le_refl _

theorem dropStale_table_ne (i : Int) (st : BState M E F) {j : Int} (h : j ≠ i) :
    (dropStaleEntry i st).table j = st.table j := by
  simp only [dropStaleEntry]
  split_ifs
  · exact upd_ne _ _ _ h
  · rfl

theorem dropStale_no_slot (K : MeshKit M E F) (n V : Nat) (i : Int)
    (st : BState M E F) (hc : InvCore K n V st) :
    ∀ p ∈ (dropStaleEntry i st).heap, p.2.2 ≠ i := by
  intro p hp
  simp only [dropStaleEntry] at hp
  split_ifs at hp with ht
  · have := List.mem_filter.mp hp
    simpa using this.2
  · intro hcontra
    have h5 := (hc.entries p hp).2.2.2.2.1
    rw [hcontra] at h5
    rw [h5] at ht
    exact ht rfl

theorem dropStale_core (K : MeshKit M E F) (n V : Nat) (i : Int)
    (st : BState M E F) (hc : InvCore K n V st) :
    InvCore K n V (dropStaleEntry i st) := by
  obtain ⟨hm, ha, he, hs, _, _, hfl⟩ := dropStale_frame i st
  have hno := dropStale_no_slot K n V i st hc
  refine ⟨?_, ?_, ?_, ?_, ?_, ?_, ?_⟩
  · intro p hp
    have hmem := dropStale_heap_sub i st p hp
    obtain ⟨e1, e2, e3, e4, e5, e6⟩ := hc.entries p hmem
    exact ⟨e1, e2, by rw [he]; exact e3, by rw [ha]; exact e4,
      by rw [dropStale_table_ne i st (hno p hp)]; exact e5, e6⟩
  · have : (dropStaleEntry i st).heap.Sublist st.heap := by
      simp only [dropStaleEntry]
      split_ifs
      · exact List.filter_sublist _
      · exact List.Sublist.refl _
    exact (this.map (fun p => p.2.2)).nodup hc.slots_nd
  · intro s t hs1 hs2 hs3 hs4 hst
    rw [ha] at hst
    exact hc.arr_inj s t hs1 hs2 hs3 hs4 hst
  · intro s hs1 hs2
    rw [hm, ha]
    exact hc.arr_mem s hs1 hs2
  · intro s l hl
    rw [hs] at hl
    exact hc.sets_ok s l hl
  · intro p hp
    rw [hfl] at hp
    obtain ⟨l, hl1, hl2⟩ := hc.log_sets p hp
    exact ⟨l, by rw [hs]; exact hl1, hl2⟩
  · rw [hfl]
    exact hc.log_nd

end SinglePres

section SinglePres2

variable {M E F : Type} [DecidableEq E]

theorem requeue_pres (K : MeshKit M E F) (n V : Nat) (e : E) (i : Int)
    (st : BState M E F) (hc : InvCore K n V st)
    (hno : ∀ p ∈ st.heap, p.2.2 ≠ i)
    (h1 : 0 ≤ i) (h2 : i < (n : Int))
    (h3 : st.eindex e = i) (h4 : st.arr i = e) :
    InvCore K n V (requeueEdge K e i st) ∧
    (∀ p ∈ (requeueEdge K e i st).heap,
      p ∈ st.heap ∨ p = (K.cost st.mesh e, e, i)) ∧
    (requeueEdge K e i st).heap.length ≤ st.heap.length + 1 ∧
    (requeueEdge K e i st).mesh = st.mesh ∧
    (requeueEdge K e i st).arr = st.arr ∧
    (requeueEdge K e i st).eindex = st.eindex ∧
    (requeueEdge K e i st).stateArr = st.stateArr ∧
    (requeueEdge K e i st).flips = st.flips := by
  simp only [requeueEdge]
  split_ifs with hcost
  · refine ⟨⟨?_, ?_, hc.arr_inj, hc.arr_mem, hc.sets_ok, hc.log_sets, hc.log_nd⟩,
      ?_, by simp, rfl, rfl, rfl, rfl, rfl⟩
    · intro p hp
      rcases List.mem_cons.mp hp with rfl | hp2
      · exact ⟨h1, h2, h3, h4, upd_same _ _ _, hcost⟩
      · obtain ⟨e1, e2, e3, e4, e5, e6⟩ := hc.entries p hp2
        exact ⟨e1, e2, e3, e4,
          by dsimp only; rw [upd_ne _ _ _ (hno p hp2)]; exact e5, e6⟩
    · simp only [List.map_cons]
      refine List.nodup_cons.mpr ⟨?_, hc.slots_nd⟩
      intro hmem
      rw [List.mem_map] at hmem
      obtain ⟨p, hp, hpe⟩ := hmem
      exact hno p hp hpe
    · intro p hp
      rcases List.mem_cons.mp hp with rfl | hp2
      · exact Or.inr rfl
      · exact Or.inl hp2
  · refine ⟨⟨?_, hc.slots_nd, hc.arr_inj, hc.arr_mem, hc.sets_ok, hc.log_sets,
      hc.log_nd⟩, fun p hp => Or.inl hp, Nat.le_succ _, rfl, rfl, rfl, rfl, rfl⟩
    intro p hp
    obtain ⟨e1, e2, e3, e4, e5, e6⟩ := hc.entries p hp
    exact ⟨e1, e2, e3, e4,
      by dsimp only; rw [upd_ne _ _ _ (hno p hp)]; exact e5, e6⟩

theorem single_pres (K : MeshKit M E F) (n V : Nat) (e : E) (bad : List E)
    (st : BState M E F) (hc : InvCore K n V st)
    (hf : ∀ p ∈ st.heap, p.2.1 ∉ (e :: bad) → EntryFresh K st p) :
    InvCore K n V (bm_edge_update_beauty_cost_single K n e st) ∧
    (∀ p ∈ (bm_edge_update_beauty_cost_single K n e st).heap,
      p.2.1 ∉ bad → EntryFresh K (bm_edge_update_beauty_cost_single K n e st) p) ∧
    (bm_edge_update_beauty_cost_single K n e st).heap.length ≤ st.heap.length + 1 := by
  rw [single_decompose]
  by_cases hg : 0 ≤ st.eindex e ∧ st.eindex e < (n : Int) ∧ st.arr (st.eindex e) = e
  · rw [if_pos hg]
    obtain ⟨hg1, hg2, hg3⟩ := hg
    have hDcore := dropStale_core K n V (st.eindex e) st hc
    have hDno := dropStale_no_slot K n V (st.eindex e) st hc
    have hDsub := dropStale_heap_sub (st.eindex e) st
    have hDlen := dropStale_heap_len (st.eindex e) st
    obtain ⟨hDm, hDa, hDe, hDs, _, _, hDfl⟩ := dropStale_frame (st.eindex e) st
    have hDnoedge : ∀ p ∈ (dropStaleEntry (st.eindex e) st).heap, p.2.1 ≠ e := by
      intro p hp hpe
      have h3 := (hDcore.entries p hp).2.2.1
      rw [hpe, hDe] at h3
      exact hDno p hp h3.symm
    have hfreshD : ∀ p ∈ (dropStaleEntry (st.eindex e) st).heap, p.2.1 ∉ bad →
        EntryFresh K (dropStaleEntry (st.eindex e) st) p := by
      intro p hp hbad
      have hne : p.2.1 ≠ e := hDnoedge p hp
      have hfp := hf p (hDsub p hp) (by simp [hne, hbad])
      intro l hl
      rw [hDs] at hl
      rw [hDm]
      exact hfp l hl
    by_cases hskip : (match (dropStaleEntry (st.eindex e) st).stateArr (st.eindex e) with
        | some l => decide (erot_state_alternate
            (K.cfg (dropStaleEntry (st.eindex e) st).mesh e) ∈ l)
        | none => false) = true
    · rw [if_pos hskip]
      exact ⟨hDcore, hfreshD, le_trans hDlen (Nat.le_succ _)⟩
    · rw [if_neg hskip]
      have hskipF : ∀ l,
          (dropStaleEntry (st.eindex e) st).stateArr (st.eindex e) = some l →
          erot_state_alternate (K.cfg (dropStaleEntry (st.eindex e) st).mesh e) ∉ l := by
        intro l hl hmem
        apply hskip
        rw [hl]
        simpa using hmem
      obtain ⟨hRcore, hRmem, hRlen, hRm, hRa, hRe, hRs, hRfl⟩ :=
        requeue_pres K n V e (st.eindex e) (dropStaleEntry (st.eindex e) st)
          hDcore hDno hg1 hg2 (by rw [hDe]) (by rw [hDa]; exact hg3)
      refine ⟨hRcore, ?_, le_trans hRlen (Nat.succ_le_succ hDlen)⟩
      intro p hp hbad
      rcases hRmem p hp with hpD | rfl
      · have hfD := hfreshD p hpD hbad
        intro l hl
        rw [hRs] at hl
        rw [hRm]
        exact hfD l hl
      · intro l hl
        rw [hRs] at hl
        rw [hRm]
        exact hskipF l hl
  · rw [if_neg hg]
    refine ⟨hc, ?_, Nat.le_succ _⟩
    intro p hp hbad
    have hne : p.2.1 ≠ e := by
      intro hpe
      obtain ⟨e1, e2, e3, e4, _, _⟩ := hc.entries p hp
      rw [hpe] at e3
      exact hg ⟨by rw [e3]; exact e1, by rw [e3]; exact e2,
        by rw [e3, e4]; exact hpe⟩
    exact hf p hp (by simp [hne, hbad])

end SinglePres2

section StepDecompose

variable {M E F : Type} [DecidableEq E]

/-- The state mutation of a successful flip: new mesh, signature recorded
at the slot, candidate array and index side channel updated, flip logged. -/
def flipApply (K : MeshKit M E F) (c : ℚ) (i : Int) (m2 : M) (e2 : E)
    (st : BState M E F) : BState M E F :=
  let sig := erot_state_current (K.cfg m2 e2)
  let oldSet := (st.stateArr i).getD []
  { st with mesh := m2,
            stateArr := upd st.stateArr i (some (sig :: oldSet)),
            arr := upd st.arr i e2,
            eindex := upd st.eindex e2 i,
            flips := (c, i, sig) :: st.flips }

/-- The optional `oflag_edge` / `oflag_face` tagging at the end of a
successful flip. -/
def applyTags (K : MeshKit M E F) (oflagEdge oflagFace : Bool) (e2 : E)
    (st : BState M E F) : BState M E F :=
  let st3 := if oflagEdge then { st with etag := e2 :: st.etag } else st
  if oflagFace then
    { st3 with ftag := (K.facesOf st3.mesh e2).1 :: (K.facesOf st3.mesh e2).2 :: st3.ftag }
  else st3

theorem beautifyStep_decompose (K : MeshKit M E F) (n : Nat)
    (oflagEdge oflagFace : Bool) (st : BState M E F) :
    beautifyStep K n oflagEdge oflagFace st =
      match heapPopMin st.heap with
      | none => none
      | some (p, hrest) =>
        let st0 : BState M E F :=
          { st with heap := hrest, table := upd st.table (st.eindex p.2.1) false }
        match K.rotate st0.mesh p.2.1 with
        | none => some st0
        | some (m2, e2) =>
          some (applyTags K oflagEdge oflagFace e2
            (bm_edge_update_beauty_cost K n e2
              (flipApply K p.1 (st.eindex p.2.1) m2 e2 st0))) := rfl

/-- Two states that agree on everything the invariant and the measure can
see (they may differ in the tag lists). -/
def TagEq (s t : BState M E F) : Prop :=
  s.mesh = t.mesh ∧ s.arr = t.arr ∧ s.eindex = t.eindex ∧ s.heap = t.heap ∧
  s.table = t.table ∧ s.stateArr = t.stateArr ∧ s.flips = t.flips

theorem applyTags_tagEq (K : MeshKit M E F) (oflagEdge oflagFace : Bool)
    (e2 : E) (st : BState M E F) :
    TagEq (applyTags K oflagEdge oflagFace e2 st) st := by
  unfold applyTags
  cases oflagEdge <;> cases oflagFace <;>
    exact ⟨rfl, rfl, rfl, rfl, rfl, rfl, rfl⟩

theorem tagEq_invCore {K : MeshKit M E F} {n V : Nat} {s t : BState M E F}
    (h : TagEq s t) (hc : InvCore K n V t) : InvCore K n V s := by
  obtain ⟨hm, ha, he, hh, htb, hs, hf⟩ := h
  refine ⟨?_, ?_, ?_, ?_, ?_, ?_, ?_⟩
  · intro p hp
    rw [hh] at hp
    have hE := hc.entries p hp
    simp only [EntryOK] at hE ⊢
    rw [he, ha, htb]
    exact hE
  · rw [hh]
    exact hc.slots_nd
  · intro s1 t1 a b c d hst
    rw [ha] at hst
    exact hc.arr_inj s1 t1 a b c d hst
  · intro s1 a b
    rw [hm, ha]
    exact hc.arr_mem s1 a b
  · intro s1 l hl
    rw [hs] at hl
    exact hc.sets_ok s1 l hl
  · intro p hp
    rw [hf] at hp
    obtain ⟨l, hl, hg⟩ := hc.log_sets p hp
    exact ⟨l, by rw [hs]; exact hl, hg⟩
  · rw [hf]
    exact hc.log_nd

theorem tagEq_fresh {K : MeshKit M E F} {s t : BState M E F}
    (h : TagEq s t) (hf : ∀ p ∈ t.heap, EntryFresh K t p) :
    ∀ p ∈ s.heap, EntryFresh K s p := by
  obtain ⟨hm, _, _, hh, _, hs, _⟩ := h
  intro p hp
  rw [hh] at hp
  intro l hsl
  rw [hs] at hsl
  rw [hm]
  exact hf p hp l hsl

theorem tagEq_mu {n V : Nat} {s t : BState M E F} (h : TagEq s t) :
    mu n V s = mu n V t := by
  obtain ⟨_, _, _, hh, _, hs, _⟩ := h
  unfold mu setsSize
  rw [hh, hs]

theorem setsSize_le_cap {K : MeshKit M E F} (n V : Nat) (st : BState M E F)
    (h : ∀ s l, st.stateArr s = some l → l.Nodup ∧ ∀ g ∈ l, SigInRange V g) :
    setsSize n st ≤ n * V ^ 4 := by
  unfold setsSize
  have hb : ∀ k ∈ Finset.range n,
      ((st.stateArr (k : Int)).map List.length).getD 0 ≤ V ^ 4 := by
    intro k _
    rcases hset : st.stateArr (k : Int) with _ | l
    · simp
    · obtain ⟨hnd, hr⟩ := h (k : Int) l hset
      simpa using ranged_nodup_length_le V l hnd hr
  calc ∑ k ∈ Finset.range n, ((st.stateArr (k : Int)).map List.length).getD 0
      ≤ ∑ _k ∈ Finset.range n, V ^ 4 := Finset.sum_le_sum hb
    _ = n * V ^ 4 := by
        rw [Finset.sum_const, Finset.card_range, smul_eq_mul]

theorem sum_upd_sets (n : Nat) (f : Int → Option (List EdRotState)) (i : Int)
    (h1 : 0 ≤ i) (h2 : i < (n : Int)) (newSet : List EdRotState)
    (hlen : newSet.length = ((f i).map List.length).getD 0 + 1) :
    (∑ k ∈ Finset.range n, (((upd f i (some newSet)) (k : Int)).map List.length).getD 0)
      = (∑ k ∈ Finset.range n, ((f (k : Int)).map List.length).getD 0) + 1 := by
  have hj : i.toNat ∈ Finset.range n := by
    rw [Finset.mem_range]
    omega
  have hcast : ((i.toNat : Nat) : Int) = i := Int.toNat_of_nonneg h1
  rw [← Finset.sum_erase_add _ _ hj, ← Finset.sum_erase_add _ _ hj]
  have hsame : ∀ k ∈ (Finset.range n).erase i.toNat,
      (((upd f i (some newSet)) (k : Int)).map List.length).getD 0
        = ((f (k : Int)).map List.length).getD 0 := by
    intro k hk
    have hkne : (k : Int) ≠ i := by
      have := (Finset.mem_erase.mp hk).1
      omega
    rw [upd_ne _ _ _ hkne]
  rw [Finset.sum_congr rfl hsame]
  have hterm : (((upd f i (some newSet)) ((i.toNat : Nat) : Int)).map List.length).getD 0
      = ((f ((i.toNat : Nat) : Int)).map List.length).getD 0 + 1 := by
    rw [hcast, upd_same]
    simpa using hlen
  rw [hterm, hcast]
  omega

end StepDecompose

section FlipPres

variable {M E F : Type} [DecidableEq E]

theorem update_cost_pres (K : MeshKit M E F) (n V : Nat) (e : E)
    (st : BState M E F) (hc : InvCore K n V st)
    (hf : ∀ p ∈ st.heap, p.2.1 ∉ [(K.nbrs st.mesh e).1, (K.nbrs st.mesh e).2.1,
        (K.nbrs st.mesh e).2.2.1, (K.nbrs st.mesh e).2.2.2] → EntryFresh K st p) :
    InvCore K n V (bm_edge_update_beauty_cost K n e st) ∧
    (∀ p ∈ (bm_edge_update_beauty_cost K n e st).heap,
       EntryFresh K (bm_edge_update_beauty_cost K n e st) p) ∧
    (bm_edge_update_beauty_cost K n e st).heap.length ≤ st.heap.length + 4 := by
  obtain ⟨c1, f1, l1⟩ := single_pres K n V (K.nbrs st.mesh e).1
    [(K.nbrs st.mesh e).2.1, (K.nbrs st.mesh e).2.2.1, (K.nbrs st.mesh e).2.2.2]
    st hc hf
  obtain ⟨c2, f2, l2⟩ := single_pres K n V (K.nbrs st.mesh e).2.1
    [(K.nbrs st.mesh e).2.2.1, (K.nbrs st.mesh e).2.2.2] _ c1 f1
  obtain ⟨c3, f3, l3⟩ := single_pres K n V (K.nbrs st.mesh e).2.2.1
    [(K.nbrs st.mesh e).2.2.2] _ c2 f2
  obtain ⟨c4, f4, l4⟩ := single_pres K n V (K.nbrs st.mesh e).2.2.2 [] _ c3 f3
  refine ⟨c4, ?_, ?_⟩
  · intro p hp
    exact f4 p hp (List.not_mem_nil _)
  · have hchain : bm_edge_update_beauty_cost K n e st =
        bm_edge_update_beauty_cost_single K n (K.nbrs st.mesh e).2.2.2
          (bm_edge_update_beauty_cost_single K n (K.nbrs st.mesh e).2.2.1
            (bm_edge_update_beauty_cost_single K n (K.nbrs st.mesh e).2.1
              (bm_edge_update_beauty_cost_single K n (K.nbrs st.mesh e).1 st))) := rfl
    rw [hchain]
    omega

/-- The slot-clearing half of a pop. -/
def popClear (st : BState M E F) (hrest : List (ℚ × E × Int)) (i : Int) :
    BState M E F :=
  { st with heap := hrest, table := upd st.table i false }

theorem flip_pres (K : MeshKit M E F) (n V : Nat) (hK : Contracts K V)
    (st : BState M E F) (p : ℚ × E × Int) (hrest : List (ℚ × E × Int))
    (m2 : M) (e2 : E) (hI : LoopInv K n V st)
    (hpop : heapPopMin st.heap = some (p, hrest))
    (hrot : K.rotate st.mesh p.2.1 = some (m2, e2)) :
    InvCore K n V (flipApply K p.1 (st.eindex p.2.1) m2 e2
        (popClear st hrest (st.eindex p.2.1))) ∧
    (∀ q ∈ (flipApply K p.1 (st.eindex p.2.1) m2 e2
          (popClear st hrest (st.eindex p.2.1))).heap,
        q.2.1 ∉ [(K.nbrs m2 e2).1, (K.nbrs m2 e2).2.1,
          (K.nbrs m2 e2).2.2.1, (K.nbrs m2 e2).2.2.2] →
        EntryFresh K (flipApply K p.1 (st.eindex p.2.1) m2 e2
          (popClear st hrest (st.eindex p.2.1))) q) ∧
    setsSize n (flipApply K p.1 (st.eindex p.2.1) m2 e2
        (popClear st hrest (st.eindex p.2.1))) = setsSize n st + 1 := by
  obtain ⟨hc, hfr⟩ := hI
  have hpmem := heapPopMin_mem hpop
  obtain ⟨e1, e2b, e3, e4, e5, e6⟩ := hc.entries p hpmem
  rw [e3]
  have hrestmem := heapPopMin_rest_mem hpop
  have hmapnd0 : (List.map (fun q => q.2.2) (p :: hrest)).Nodup :=
    ((heapPopMin_perm hpop).map (fun q => q.2.2)).nodup_iff.mp hc.slots_nd
  have hmapnd : (p.2.2 :: hrest.map (fun q => q.2.2)).Nodup := by
    simpa using hmapnd0
  have hrestslot : ∀ q ∈ hrest, q.2.2 ≠ p.2.2 := by
    intro q hq hcontra
    exact (List.nodup_cons.mp hmapnd).1
      (by rw [← hcontra]; exact List.mem_map_of_mem _ hq)
  have hsig := hK.rot_sig st.mesh p.2.1 m2 e2 hrot
  have hsig_not : erot_state_current (K.cfg m2 e2) ∉
      (st.stateArr p.2.2).getD [] := by
    rcases hset : st.stateArr p.2.2 with _ | l
    · simp
    · rw [hsig]
      simpa using hfr p hpmem l hset
  have hnewfresh := hK.rot_new_fresh st.mesh p.2.1 m2 e2 hrot
  have hnewmem := hK.rot_new_mem st.mesh p.2.1 m2 e2 hrot
  have hpers := hK.rot_pers st.mesh p.2.1 m2 e2 hrot
  have harr_ne_e2 : ∀ s : Int, 0 ≤ s → s < (n : Int) → st.arr s ≠ e2 := by
    intro s hs1 hs2 hcontra
    have hmm := hc.arr_mem s hs1 hs2
    rw [hcontra, hnewfresh] at hmm
    exact Bool.noConfusion hmm
  have hFm : (flipApply K p.1 p.2.2 m2 e2 (popClear st hrest p.2.2)).mesh = m2 := rfl
  have hFa : (flipApply K p.1 p.2.2 m2 e2 (popClear st hrest p.2.2)).arr
      = upd st.arr p.2.2 e2 := rfl
  have hFe : (flipApply K p.1 p.2.2 m2 e2 (popClear st hrest p.2.2)).eindex
      = upd st.eindex e2 p.2.2 := rfl
  have hFh : (flipApply K p.1 p.2.2 m2 e2 (popClear st hrest p.2.2)).heap
      = hrest := rfl
  have hFt : (flipApply K p.1 p.2.2 m2 e2 (popClear st hrest p.2.2)).table
      = upd st.table p.2.2 false := rfl
  have hFs : (flipApply K p.1 p.2.2 m2 e2 (popClear st hrest p.2.2)).stateArr
      = upd st.stateArr p.2.2
          (some (erot_state_current (K.cfg m2 e2)
            :: (st.stateArr p.2.2).getD [])) := rfl
  have hFf : (flipApply K p.1 p.2.2 m2 e2 (popClear st hrest p.2.2)).flips
      = (p.1, p.2.2, erot_state_current (K.cfg m2 e2)) :: st.flips := rfl
  have hq_ne_e2 : ∀ q ∈ hrest, q.2.1 ≠ e2 := by
    intro q hq hcontra
    obtain ⟨q1, q2, q3, q4, q5, q6⟩ := hc.entries q (hrestmem q hq)
    exact harr_ne_e2 q.2.2 q1 q2 (by rw [q4, hcontra])
  refine ⟨⟨?_, ?_, ?_, ?_, ?_, ?_, ?_⟩, ?_, ?_⟩
  · -- entries
    intro q hq
    rw [hFh] at hq
    obtain ⟨q1, q2, q3, q4, q5, q6⟩ := hc.entries q (hrestmem q hq)
    refine ⟨q1, q2, ?_, ?_, ?_, q6⟩
    · rw [hFe, upd_ne _ _ _ (hq_ne_e2 q hq)]
      exact q3
    · rw [hFa, upd_ne _ _ _ (hrestslot q hq)]
      exact q4
    · rw [hFt, upd_ne _ _ _ (hrestslot q hq)]
      exact q5
  · -- slots nodup
    rw [hFh]
    exact (List.nodup_cons.mp hmapnd).2
  · -- arr injective
    intro s t hs1 hs2 ht1 ht2 hst
    rw [hFa] at hst
    by_cases hsp : s = p.2.2 <;> by_cases htp : t = p.2.2
    · rw [hsp, htp]
    · exfalso
      rw [hsp, upd_same, upd_ne _ _ _ htp] at hst
      exact harr_ne_e2 t ht1 ht2 hst.symm
    · exfalso
      rw [htp, upd_same, upd_ne _ _ _ hsp] at hst
      exact harr_ne_e2 s hs1 hs2 hst
    · rw [upd_ne _ _ _ hsp, upd_ne _ _ _ htp] at hst
      exact hc.arr_inj s t hs1 hs2 ht1 ht2 hst
  · -- arr membership in the new mesh
    intro s hs1 hs2
    rw [hFm, hFa]
    by_cases hsp : s = p.2.2
    · rw [hsp, upd_same]
      exact hnewmem
    · rw [upd_ne _ _ _ hsp]
      exact hpers _ (hc.arr_mem s hs1 hs2)
  · -- signature sets stay duplicate-free and in range
    intro s l hl
    rw [hFs] at hl
    by_cases hsp : s = p.2.2
    · rw [hsp, upd_same] at hl
      obtain rfl := (Option.some.inj hl).symm
      constructor
      · refine List.nodup_cons.mpr ⟨hsig_not, ?_⟩
        rcases hset : st.stateArr p.2.2 with _ | l0
        · simp [hset]
        · simpa [hset] using (hc.sets_ok p.2.2 l0 hset).1
      · intro g hg
        rcases List.mem_cons.mp hg with rfl | hg2
        · exact sig_in_range_current V _ (hK.cfg_range m2 e2)
        · rcases hset : st.stateArr p.2.2 with _ | l0
          · rw [hset] at hg2
            simp at hg2
          · rw [hset] at hg2
            exact (hc.sets_ok p.2.2 l0 hset).2 g (by simpa using hg2)
    · rw [upd_ne _ _ _ hsp] at hl
      exact hc.sets_ok s l hl
  · -- flip log entries point into their slot's set
    intro q hq
    rw [hFf] at hq
    rcases List.mem_cons.mp hq with rfl | hq2
    · refine ⟨erot_state_current (K.cfg m2 e2)
        :: (st.stateArr p.2.2).getD [], ?_, List.mem_cons_self _ _⟩
      rw [hFs]
      exact upd_same _ _ _
    · obtain ⟨l, hl, hgl⟩ := hc.log_sets q hq2
      by_cases hqp : q.2.1 = p.2.2
      · refine ⟨erot_state_current (K.cfg m2 e2)
          :: (st.stateArr p.2.2).getD [], ?_, ?_⟩
        · rw [hFs, hqp]
          exact upd_same _ _ _
        · rw [hqp] at hl
          rw [hl]
          exact List.mem_cons_of_mem _ (by simpa using hgl)
      · refine ⟨l, ?_, hgl⟩
        rw [hFs, upd_ne _ _ _ hqp]
        exact hl
  · -- flip log has no repeated (slot, signature) pair
    rw [hFf]
    simp only [List.map_cons]
    refine List.nodup_cons.mpr ⟨?_, hc.log_nd⟩
    intro hmem
    rw [List.mem_map] at hmem
    obtain ⟨q, hq, hq2⟩ := hmem
    have hslot : q.2.1 = p.2.2 := congrArg Prod.fst hq2
    have hsg : q.2.2 = erot_state_current (K.cfg m2 e2) := congrArg Prod.snd hq2
    obtain ⟨l, hl, hgl⟩ := hc.log_sets q hq
    rw [hslot] at hl
    apply hsig_not
    rw [hl]
    rw [hsg] at hgl
    simpa using hgl
  · -- pending freshness for the four boundary edges
    intro q hq hnb
    rw [hFh] at hq
    simp only [List.mem_cons, List.not_mem_nil, or_false] at hnb
    push_neg at hnb
    obtain ⟨hn1, hn2, hn3, hn4⟩ := hnb
    intro l hl
    rw [hFs, upd_ne _ _ _ (hrestslot q hq)] at hl
    rw [hFm]
    rw [hK.rot_frame st.mesh p.2.1 m2 e2 hrot q.2.1 (hq_ne_e2 q hq) hn1 hn2 hn3 hn4]
    exact hfr q (hrestmem q hq) l hl
  · -- the slot's signature set grew by exactly one
    have hlen : (erot_state_current (K.cfg m2 e2)
        :: (st.stateArr p.2.2).getD []).length
          = ((st.stateArr p.2.2).map List.length).getD 0 + 1 := by
      rcases hset : st.stateArr p.2.2 with _ | l0 <;> simp [hset]
    have hsum := sum_upd_sets n st.stateArr p.2.2 e1 e2b _ hlen
    calc setsSize n (flipApply K p.1 p.2.2 m2 e2 (popClear st hrest p.2.2))
        = ∑ k ∈ Finset.range n,
            (((upd st.stateArr p.2.2 (some (erot_state_current (K.cfg m2 e2)
              :: (st.stateArr p.2.2).getD []))) (k : Int)).map List.length).getD 0 := by
          unfold setsSize
          rw [hFs]
      _ = setsSize n st + 1 := by
          rw [hsum]
          rfl

end FlipPres

section StepPres

variable {M E F : Type} [DecidableEq E]

theorem step_pres (K : MeshKit M E F) (n V : Nat) (hK : Contracts K V)
    (oflagEdge oflagFace : Bool) (st st' : BState M E F)
    (hI : LoopInv K n V st)
    (hstep : beautifyStep K n oflagEdge oflagFace st = some st') :
    LoopInv K n V st' ∧ mu n V st' < mu n V st := by
  obtain ⟨hc, hfr⟩ := hI
  rw [beautifyStep_decompose] at hstep
  rcases hpop : heapPopMin st.heap with _ | pr
  · rw [hpop] at hstep
    exact Option.noConfusion hstep
  obtain ⟨p, hrest⟩ := pr
  rw [hpop] at hstep
  dsimp only at hstep
  have hpmem := heapPopMin_mem hpop
  have hlen := heapPopMin_length hpop
  have hrestmem := heapPopMin_rest_mem hpop
  obtain ⟨e1, e2b, e3, e4, e5, e6⟩ := hc.entries p hpmem
  have hmapnd0 : (List.map (fun q => q.2.2) (p :: hrest)).Nodup :=
    ((heapPopMin_perm hpop).map (fun q => q.2.2)).nodup_iff.mp hc.slots_nd
  have hmapnd : (p.2.2 :: hrest.map (fun q => q.2.2)).Nodup := by
    simpa using hmapnd0
  have hrestslot : ∀ q ∈ hrest, q.2.2 ≠ p.2.2 := by
    intro q hq hcontra
    exact (List.nodup_cons.mp hmapnd).1
      (by rw [← hcontra]; exact List.mem_map_of_mem _ hq)
  rcases hrot : K.rotate st.mesh p.2.1 with _ | mr
  · -- refusal: only the popped entry and its table cell change
    rw [hrot] at hstep
    have hstep2 : some (popClear st hrest (st.eindex p.2.1)) = some st' := hstep
    obtain rfl := Option.some.inj hstep2
    rw [e3]
    refine ⟨⟨⟨?_, ?_, hc.arr_inj, hc.arr_mem, hc.sets_ok, hc.log_sets, hc.log_nd⟩,
      ?_⟩, ?_⟩
    · intro q hq
      obtain ⟨q1, q2, q3, q4, q5, q6⟩ := hc.entries q (hrestmem q hq)
      refine ⟨q1, q2, q3, q4, ?_, q6⟩
      show upd st.table p.2.2 false q.2.2 = true
      rw [upd_ne _ _ _ (hrestslot q hq)]
      exact q5
    · exact (List.nodup_cons.mp hmapnd).2
    · intro q hq
      exact hfr q (hrestmem q hq)
    · have hss : setsSize n (popClear st hrest p.2.2) = setsSize n st := rfl
      have hhl : (popClear st hrest p.2.2).heap.length = hrest.length := rfl
      unfold mu
      rw [hss, hhl]
      omega
  · -- successful flip
    obtain ⟨m2, e2⟩ := mr
    rw [hrot] at hstep
    have hstep2 : some (applyTags K oflagEdge oflagFace e2
        (bm_edge_update_beauty_cost K n e2
          (flipApply K p.1 (st.eindex p.2.1) m2 e2
            (popClear st hrest (st.eindex p.2.1))))) = some st' := hstep
    obtain rfl := Option.some.inj hstep2
    rw [e3]
    obtain ⟨hc1, hf1, hsum1⟩ :=
      flip_pres K n V hK st p hrest m2 e2 ⟨hc, hfr⟩ hpop hrot
    rw [e3] at hc1 hf1 hsum1
    obtain ⟨hc2, hf2, hlen2⟩ := update_cost_pres K n V e2 _ hc1 hf1
    have htag := applyTags_tagEq K oflagEdge oflagFace e2
      (bm_edge_update_beauty_cost K n e2
        (flipApply K p.1 p.2.2 m2 e2 (popClear st hrest p.2.2)))
    refine ⟨⟨tagEq_invCore htag hc2, tagEq_fresh htag hf2⟩, ?_⟩
    have hmu4 := tagEq_mu (n := n) (V := V) htag
    have hss2 : setsSize n (bm_edge_update_beauty_cost K n e2
        (flipApply K p.1 p.2.2 m2 e2 (popClear st hrest p.2.2)))
          = setsSize n (flipApply K p.1 p.2.2 m2 e2 (popClear st hrest p.2.2)) := by
      unfold setsSize
      rw [bm_update_cost_stateArr]
    have hcap := setsSize_le_cap (K := K) n V
      (flipApply K p.1 p.2.2 m2 e2 (popClear st hrest p.2.2)) hc1.sets_ok
    rw [hsum1] at hcap
    have hstcheap : (flipApply K p.1 p.2.2 m2 e2
        (popClear st hrest p.2.2)).heap.length = hrest.length := rfl
    rw [hstcheap] at hlen2
    rw [hmu4]
    unfold mu
    rw [hss2, hsum1]
    omega

end StepPres

section SeedPres

variable {M E F : Type} [DecidableEq E]

theorem seedSlot_decompose (K : MeshKit M E F) (i : Int) (st : BState M E F) :
    seedSlot K i st =
      if K.cost st.mesh (st.arr i) < 0 then
        { st with heap := (K.cost st.mesh (st.arr i), st.arr i, i) :: st.heap,
                  table := upd st.table i true,
                  eindex := upd st.eindex (st.arr i) i }
      else
        { st with table := upd st.table i false,
                  eindex := upd st.eindex (st.arr i) i } := by
  simp only [seedSlot]
  split_ifs <;> rfl

theorem seedSlot_pres (K : MeshKit M E F) (n V : Nat) (kk : Nat)
    (st : BState M E F) (hc : InvCore K n V st)
    (hslot : ∀ p ∈ st.heap, p.2.2 < (kk : Int))
    (hset0 : ∀ s : Int, st.stateArr s = none)
    (hkub : (kk : Int) < (n : Int)) :
    LoopInv K n V (seedSlot K (kk : Int) st) ∧
    (∀ p ∈ (seedSlot K (kk : Int) st).heap, p.2.2 < (kk : Int) + 1) := by
  rw [seedSlot_decompose]
  have hne : ∀ p ∈ st.heap, p.2.1 ≠ st.arr (kk : Int) := by
    intro p hp hcontra
    obtain ⟨q1, q2, q3, q4, _, _⟩ := hc.entries p hp
    have heq := hc.arr_inj p.2.2 (kk : Int) q1 q2 (by omega) (by omega)
      (by rw [q4, hcontra])
    have hlt := hslot p hp
    omega
  have hneslot : ∀ p ∈ st.heap, p.2.2 ≠ (kk : Int) := by
    intro p hp
    have := hslot p hp
    omega
  split_ifs with hcost
  · refine ⟨⟨⟨?_, ?_, hc.arr_inj, hc.arr_mem, ?_, ?_, hc.log_nd⟩, ?_⟩, ?_⟩
    · intro p hp
      have hp2 : p ∈ (K.cost st.mesh (st.arr (kk : Int)), st.arr (kk : Int),
          (kk : Int)) :: st.heap := hp
      rcases List.mem_cons.mp hp2 with rfl | hp3
      · refine ⟨by dsimp only; omega, hkub, ?_, rfl, ?_, hcost⟩
        · exact upd_same _ _ _
        · exact upd_same _ _ _
      · obtain ⟨q1, q2, q3, q4, q5, q6⟩ := hc.entries p hp3
        refine ⟨q1, q2, ?_, q4, ?_, q6⟩
        · show upd st.eindex (st.arr (kk : Int)) (kk : Int) p.2.1 = p.2.2
          rw [upd_ne _ _ _ (hne p hp3)]
          exact q3
        · show upd st.table (kk : Int) true p.2.2 = true
          rw [upd_ne _ _ _ (hneslot p hp3)]
          exact q5
    · show ((((K.cost st.mesh (st.arr (kk : Int)), st.arr (kk : Int), (kk : Int))
          :: st.heap)).map (fun p => p.2.2)).Nodup
      simp only [List.map_cons]
      refine List.nodup_cons.mpr ⟨?_, hc.slots_nd⟩
      intro hmem2
      rw [List.mem_map] at hmem2
      obtain ⟨q, hq, hq2⟩ := hmem2
      exact hneslot q hq hq2
    · intro s l hl
      have hl2 : st.stateArr s = some l := hl
      rw [hset0 s] at hl2
      exact Option.noConfusion hl2
    · intro p hp
      have hp2 : p ∈ st.flips := hp
      obtain ⟨l, hl, _⟩ := hc.log_sets p hp2
      rw [hset0 p.2.1] at hl
      exact Option.noConfusion hl
    · intro p hp l hl
      have hl2 : st.stateArr p.2.2 = some l := hl
      rw [hset0 p.2.2] at hl2
      exact Option.noConfusion hl2
    · intro p hp
      have hp2 : p ∈ (K.cost st.mesh (st.arr (kk : Int)), st.arr (kk : Int),
          (kk : Int)) :: st.heap := hp
      rcases List.mem_cons.mp hp2 with rfl | hp3
      · dsimp only
        omega
      · have := hslot p hp3
        omega
  · refine ⟨⟨⟨?_, hc.slots_nd, hc.arr_inj, hc.arr_mem, ?_, ?_, hc.log_nd⟩, ?_⟩, ?_⟩
    · intro p hp
      have hp3 : p ∈ st.heap := hp
      obtain ⟨q1, q2, q3, q4, q5, q6⟩ := hc.entries p hp3
      refine ⟨q1, q2, ?_, q4, ?_, q6⟩
      · show upd st.eindex (st.arr (kk : Int)) (kk : Int) p.2.1 = p.2.2
        rw [upd_ne _ _ _ (hne p hp3)]
        exact q3
      · show upd st.table (kk : Int) false p.2.2 = true
        rw [upd_ne _ _ _ (hneslot p hp3)]
        exact q5
    · intro s l hl
      have hl2 : st.stateArr s = some l := hl
      rw [hset0 s] at hl2
      exact Option.noConfusion hl2
    · intro p hp
      have hp2 : p ∈ st.flips := hp
      obtain ⟨l, hl, _⟩ := hc.log_sets p hp2
      rw [hset0 p.2.1] at hl
      exact Option.noConfusion hl
    · intro p hp l hl
      have hl2 : st.stateArr p.2.2 = some l := hl
      rw [hset0 p.2.2] at hl2
      exact Option.noConfusion hl2
    · intro p hp
      have hp3 : p ∈ st.heap := hp
      have := hslot p hp3
      omega

theorem seedAll_loopInv (K : MeshKit M E F) (n V : Nat)
    (m0 : M) (arr0 : Int → E) (eidx0 : E → Int)
    (hinj : ∀ s t : Int, 0 ≤ s → s < (n : Int) → 0 ≤ t → t < (n : Int) →
      arr0 s = arr0 t → s = t)
    (hmem : ∀ s : Int, 0 ≤ s → s < (n : Int) → K.memEdge m0 (arr0 s) = true) :
    ∀ k : Nat, k ≤ n →
      LoopInv K n V (seedAll K k (initState m0 arr0 eidx0)) ∧
      (∀ p ∈ (seedAll K k (initState m0 arr0 eidx0)).heap, p.2.2 < (k : Int)) := by
  intro k
  induction k with
  | zero =>
    intro _
    refine ⟨⟨⟨?_, ?_, hinj, hmem, ?_, ?_, ?_⟩, ?_⟩, ?_⟩
    · intro p hp
      exact absurd hp (List.not_mem_nil p)
    · exact List.nodup_nil
    · intro s l hl
      exact Option.noConfusion hl
    · intro p hp
      exact absurd hp (List.not_mem_nil p)
    · exact List.nodup_nil
    · intro p hp
      exact absurd hp (List.not_mem_nil p)
    · intro p hp
      exact absurd hp (List.not_mem_nil p)
  | succ k ih =>
    intro hk1
    obtain ⟨⟨hcS, hfS⟩, hslotS⟩ := ih (by omega)
    have hsetS : ∀ s : Int,
        (seedAll K k (initState m0 arr0 eidx0 (F := F))).stateArr s = none := by
      intro s
      rw [(seedAll_frame K k (initState m0 arr0 eidx0)).2.2.1]
      rfl
    have hkub : (k : Int) < (n : Int) := by omega
    obtain ⟨hI2, hb2⟩ := seedSlot_pres K n V k
      (seedAll K k (initState m0 arr0 eidx0)) hcS hslotS hsetS hkub
    refine ⟨hI2, ?_⟩
    intro p hp
    have := hb2 p hp
    omega

end SeedPres

section Termination

variable {M E F : Type} [DecidableEq E]

theorem loop_pres (K : MeshKit M E F) (n V : Nat) (hK : Contracts K V)
    (oflagEdge oflagFace : Bool) :
    ∀ (fuel : Nat) (st : BState M E F), LoopInv K n V st → mu n V st < fuel →
      ∃ st2, beautifyLoop K n oflagEdge oflagFace fuel st = some st2 ∧
        LoopInv K n V st2 := by
  intro fuel
  induction fuel with
  | zero =>
    intro st _ h
    omega
  | succ fuel ih =>
    intro st hI hmu
    rcases hs : beautifyStep K n oflagEdge oflagFace st with _ | st1
    · refine ⟨st, ?_, hI⟩
      unfold beautifyLoop
      rw [hs]
    · obtain ⟨hI1, hlt⟩ := step_pres K n V hK oflagEdge oflagFace st st1 hI hs
      obtain ⟨st2, h2, hI2⟩ := ih st1 hI1 (by omega)
      refine ⟨st2, ?_, hI2⟩
      unfold beautifyLoop
      rw [hs]
      exact h2

theorem loop_inv_result (K : MeshKit M E F) (n V : Nat) (hK : Contracts K V)
    (oflagEdge oflagFace : Bool) :
    ∀ (fuel : Nat) (st st2 : BState M E F), LoopInv K n V st →
      beautifyLoop K n oflagEdge oflagFace fuel st = some st2 →
      LoopInv K n V st2 := by
  intro fuel
  induction fuel with
  | zero =>
    intro st st2 hI h
    unfold beautifyLoop at h
    rcases hs : beautifyStep K n oflagEdge oflagFace st with _ | st1 <;>
      rw [hs] at h
    · obtain rfl := Option.some.inj h
      exact hI
    · exact Option.noConfusion h
  | succ fuel ih =>
    intro st st2 hI h
    unfold beautifyLoop at h
    rcases hs : beautifyStep K n oflagEdge oflagFace st with _ | st1 <;>
      rw [hs] at h
    · obtain rfl := Option.some.inj h
      exact hI
    · exact ih st1 st2 (step_pres K n V hK oflagEdge oflagFace st st1 hI hs).1 h

/-- **C1** — Termination: under the spec's collaborator contracts (finite
vertex pool of size `V`, flips swap the signature pairs, rotations create
genuinely new edges and only disturb the local configurations of the four
boundary edges) and a duplicate-free candidate array of mesh edges, the
RUNNING loop finishes within any fuel exceeding the measure
`4·(n·V⁴ − Σ|sets|) + |heap|` of the seeded state: a refusal shrinks the
heap, a flip strictly grows one slot's signature set, and each slot's set
is bounded by `V⁴`. -/
theorem beautify_fill_terminates (K : MeshKit M E F) (n V : Nat)
    (hK : Contracts K V) (oflagEdge oflagFace : Bool)
    (m0 : M) (arr0 : Int → E) (eidx0 : E → Int)
    (hinj : ∀ s t : Int, 0 ≤ s → s < (n : Int) → 0 ≤ t → t < (n : Int) →
      arr0 s = arr0 t → s = t)
    (hmem : ∀ s : Int, 0 ≤ s → s < (n : Int) → K.memEdge m0 (arr0 s) = true)
    (fuel : Nat)
    (hfuel : mu n V (seedAll K n (initState m0 arr0 eidx0)) < fuel) :
    (BM_mesh_beautify_fill K n oflagEdge oflagFace fuel m0 arr0 eidx0).isSome
      = true := by
  obtain ⟨hseed, _⟩ := seedAll_loopInv K n V m0 arr0 eidx0 hinj hmem n le_rfl
  obtain ⟨st2, h2, _⟩ :=
    loop_pres K n V hK oflagEdge oflagFace fuel _ hseed hfuel
  unfold BM_mesh_beautify_fill
  rw [h2]
  rfl

/-- **C2** — No-revisit: in any run under the collaborator contracts,
every executed flip records at its slot a signature that was not in the
slot's set at that moment, so the flip log never contains the same
(slot, signature) pair twice. -/
theorem no_revisit_flip_log_nodup (K : MeshKit M E F) (n V : Nat)
    (hK : Contracts K V) (oflagEdge oflagFace : Bool) (fuel : Nat)
    (m0 : M) (arr0 : Int → E) (eidx0 : E → Int)
    (hinj : ∀ s t : Int, 0 ≤ s → s < (n : Int) → 0 ≤ t → t < (n : Int) →
      arr0 s = arr0 t → s = t)
    (hmem : ∀ s : Int, 0 ≤ s → s < (n : Int) → K.memEdge m0 (arr0 s) = true) :
    ((flipsLog (BM_mesh_beautify_fill K n oflagEdge oflagFace fuel m0 arr0 eidx0)).map
      (fun q => q.2)).Nodup := by
  obtain ⟨hseed, _⟩ := seedAll_loopInv K n V m0 arr0 eidx0 hinj hmem n le_rfl
  unfold BM_mesh_beautify_fill
  rcases hres : beautifyLoop K n oflagEdge oflagFace fuel
      (seedAll K n (initState m0 arr0 eidx0)) with _ | st2
  · simp [flipsLog]
  · have hI2 := loop_inv_result K n V hK oflagEdge oflagFace fuel _ st2 hseed hres
    simpa [flipsLog] using hI2.1.log_nd

end Termination

/-! ### The oscillating instance satisfies the collaborator contracts -/

theorem oscContracts : Contracts oscKit 4 := by
  constructor
  · intro m e
    by_cases h : e % 2 = 0 <;>
      simp only [oscKit, h, if_true, if_false] <;>
        unfold CfgInRange <;> decide
  · intro m e m2 e2 hr
    simp only [oscKit] at hr
    split_ifs at hr with he
    · have h12 := Option.some.inj hr
      obtain ⟨rfl, rfl⟩ : m2 = m + 1 ∧ e2 = (m : Int) + 1 :=
        ⟨(congrArg Prod.fst h12).symm, (congrArg Prod.snd h12).symm⟩
      subst he
      by_cases hp : (m : Int) % 2 = 0
      · have hp1 : ¬((m : Int) + 1) % 2 = 0 := by omega
        simp only [oscKit, hp, hp1, if_true, if_false]
        decide
      · have hp1 : ((m : Int) + 1) % 2 = 0 := by omega
        simp only [oscKit, hp, hp1, if_true, if_false]
        decide
  · intro m e m2 e2 hr
    simp only [oscKit] at hr ⊢
    split_ifs at hr with he
    · have h12 := Option.some.inj hr
      obtain rfl : e2 = (m : Int) + 1 := (congrArg Prod.snd h12).symm
      simp only [decide_eq_false_iff_not]
      omega
  · intro m e m2 e2 hr
    simp only [oscKit] at hr ⊢
    split_ifs at hr with he
    · have h12 := Option.some.inj hr
      obtain ⟨rfl, rfl⟩ : m2 = m + 1 ∧ e2 = (m : Int) + 1 :=
        ⟨(congrArg Prod.fst h12).symm, (congrArg Prod.snd h12).symm⟩
      simp only [decide_eq_true_eq]
      omega
  · intro m e m2 e2 hr x hx
    simp only [oscKit] at hr hx ⊢
    split_ifs at hr with he
    · have h12 := Option.some.inj hr
      obtain rfl : m2 = m + 1 := (congrArg Prod.fst h12).symm
      simp only [decide_eq_true_eq] at hx ⊢
      omega
  · intro m e m2 e2 _ x _ _ _ _ _
    rfl

/-- Duplicate-freedom of the one-slot candidate array. -/
theorem oscInj : ∀ s t : Int, 0 ≤ s → s < ((1 : Nat) : Int) → 0 ≤ t →
    t < ((1 : Nat) : Int) → oscArr s = oscArr t → s = t := by
  intro s t h1 h2 h3 h4 _
  omega

/-- The one candidate edge is an edge of the initial mesh. -/
theorem oscMem : ∀ s : Int, 0 ≤ s → s < ((1 : Nat) : Int) →
    oscKit.memEdge 0 (oscArr s) = true := by
  intro s h1 h2
  have hs0 : s = 0 := by omega
  subst hs0
  decide

theorem beautify_fill_terminates_witness :
    (BM_mesh_beautify_fill oscKit 1 false false 1026 0 oscArr oscIdx).isSome
      = true :=
  beautify_fill_terminates oscKit 1 4 oscContracts false false 0 oscArr oscIdx
    oscInj oscMem 1026 (by decide)

theorem no_revisit_flip_log_nodup_witness :
    ((flipsLog (BM_mesh_beautify_fill oscKit 1 false false 9 0 oscArr oscIdx)).map
      (fun q => q.2)).Nodup ∧
    (flipsLog (BM_mesh_beautify_fill oscKit 1 false false 9 0 oscArr oscIdx)).length
      = 2 :=
  ⟨no_revisit_flip_log_nodup oscKit 1 4 oscContracts false false 9 0 oscArr oscIdx
      oscInj oscMem,
   by decide⟩

/-! ### C5: idempotence

A second invocation starts with fresh (empty) signature sets, so an edge
whose flip was suppressed in the first run only because its own slot was
never re-queued (or was blocked by the cycle check) flips again.  The
oscillating instance — precisely the "edges keep rotating" situation the
source file's header comment warns about — makes the first run stop after
two flips with a still-improving, rotatable candidate, and a second run on
its output flips again. -/

def oscRun1 : Option (BState Nat Int Unit) :=
  BM_mesh_beautify_fill oscKit 1 false false 9 0 oscArr oscIdx

def oscRun2 : Option (BState Nat Int Unit) :=
  match oscRun1 with
  | some st => BM_mesh_beautify_fill oscKit 1 false false 9 st.mesh st.arr st.eindex
  | none => none

/-- Counterexample for C5: the first run completes (after two flips), and
the second run on the mesh, candidate array and element indices the first
run produced performs at least one flip — idempotence fails as stated. -/
theorem idempotence_fails_on_oscillating_metric :
    oscRun1.isSome = true ∧
    (flipsLog oscRun1).length = 2 ∧
    flipsLog oscRun2 ≠ [] :=
  ⟨by decide, by decide, by decide⟩

section Amended

variable {M E F : Type} [DecidableEq E]

theorem seed_heap_entries (K : MeshKit M E F) (m0 : M) (arr0 : Int → E)
    (eidx0 : E → Int) :
    ∀ k : Nat, ∀ p ∈ (seedAll K k (initState m0 arr0 eidx0 (F := F))).heap,
      ∃ i : Int, 0 ≤ i ∧ i < (k : Int) ∧
        p = (K.cost m0 (arr0 i), arr0 i, i) ∧ K.cost m0 (arr0 i) < 0 := by
  intro k
  induction k with
  | zero =>
    intro p hp
    exact absurd hp (List.not_mem_nil p)
  | succ k ih =>
    intro p hp
    have harrS : (seedAll K k (initState m0 arr0 eidx0 (F := F))).arr = arr0 :=
      (seedAll_frame K k _).2.1
    have hmeshS : (seedAll K k (initState m0 arr0 eidx0 (F := F))).mesh = m0 :=
      (seedAll_frame K k _).1
    have hp2 : p ∈ (seedSlot K (k : Int)
        (seedAll K k (initState m0 arr0 eidx0))).heap := hp
    rw [seedSlot_decompose, hmeshS, harrS] at hp2
    split_ifs at hp2 with hcost
    · dsimp only at hp2
      rcases List.mem_cons.mp hp2 with rfl | hp3
      · exact ⟨(k : Int), by omega, by omega, rfl, hcost⟩
      · obtain ⟨i, hi0, hin, hpe, hneg⟩ := ih p hp3
        exact ⟨i, hi0, by omega, hpe, hneg⟩
    · dsimp only at hp2
      obtain ⟨i, hi0, hin, hpe, hneg⟩ := ih p hp2
      exact ⟨i, hi0, by omega, hpe, hneg⟩

theorem loop_no_flips (K : MeshKit M E F) (n : Nat)
    (oflagEdge oflagFace : Bool) (m0 : M) :
    ∀ (fuel : Nat) (st : BState M E F),
      st.mesh = m0 → st.flips = [] →
      (∀ p ∈ st.heap, K.rotate m0 p.2.1 = none) →
      flipsLog (beautifyLoop K n oflagEdge oflagFace fuel st) = [] := by
  intro fuel
  induction fuel with
  | zero =>
    intro st hm hf hr
    unfold beautifyLoop
    rcases hs : beautifyStep K n oflagEdge oflagFace st with _ | st1
    · simpa [flipsLog] using hf
    · simp [flipsLog]
  | succ fuel ih =>
    intro st hm hf hr
    unfold beautifyLoop
    rcases hs : beautifyStep K n oflagEdge oflagFace st with _ | st1
    · simpa [flipsLog] using hf
    · rw [beautifyStep_decompose] at hs
      rcases hpop : heapPopMin st.heap with _ | pr
      · rw [hpop] at hs
        exact Option.noConfusion hs
      obtain ⟨p, hrest⟩ := pr
      rw [hpop] at hs
      dsimp only at hs
      have hrotp : K.rotate st.mesh p.2.1 = none := by
        rw [hm]
        exact hr p (heapPopMin_mem hpop)
      rw [hrotp] at hs
      have hs2 : some (popClear st hrest (st.eindex p.2.1)) = some st1 := hs
      obtain rfl := Option.some.inj hs2
      apply ih
      · exact hm
      · exact hf
      · intro q hq
        exact hr q (heapPopMin_rest_mem hpop q hq)

/-- **C5 (amended)** — If, at invocation start, every candidate edge's
recomputed score is non-negative or its rotation is refused by the mesh,
the run performs zero flips.  In particular a second run on a first run's
output performs zero flips under exactly this proviso; without it
idempotence fails, because signature sets are not carried across
invocations (see the counterexample). -/
theorem second_run_no_flips_of_stable (K : MeshKit M E F) (n : Nat)
    (oflagEdge oflagFace : Bool) (fuel : Nat)
    (m0 : M) (arr0 : Int → E) (eidx0 : E → Int)
    (hstable : ∀ i : Int, 0 ≤ i → i < (n : Int) →
      ¬ K.cost m0 (arr0 i) < 0 ∨ K.rotate m0 (arr0 i) = none) :
    flipsLog (BM_mesh_beautify_fill K n oflagEdge oflagFace fuel m0 arr0 eidx0)
      = [] := by
  unfold BM_mesh_beautify_fill
  apply loop_no_flips K n oflagEdge oflagFace m0 fuel
  · exact (seedAll_frame K n _).1
  · exact (seedAll_frame K n _).2.2.2.2.2
  · intro p hp
    obtain ⟨i, hi0, hin, rfl, hneg⟩ := seed_heap_entries K m0 arr0 eidx0 n p hp
    rcases hstable i hi0 hin with hcost | hrot
    · exact absurd hneg hcost
    · exact hrot

end Amended

/-- A candidate array whose single edge the collaborator always refuses to
rotate (edge 5 is never the live diagonal of `oscKit`). -/
def oscArrStuck : Int → Int := fun _ => 5

theorem second_run_no_flips_of_stable_witness :
    flipsLog (BM_mesh_beautify_fill oscKit 1 false false 9 0 oscArrStuck oscIdx)
      = [] :=
  second_run_no_flips_of_stable oscKit 1 false false 9 0 oscArrStuck oscIdx
    (fun _ _ _ => Or.inr rfl)
